import Mathlib

/-!
Verification of the tree/progress/layout core of the Project_Tree repository
(reverse-skill-tree). The TypeScript sources are shallowly embedded:

* JS numbers are modelled as rationals (ℚ); JS `Date` timestamps as ℕ.
* JS `Array.prototype.find` is `List.find?`; `new Map(nodes.map(n => [n.id, n]))`
  followed by `.get` is `mapLookup` (last entry wins, as for JS `Map.set`).
* JS `Array.prototype.sort` with comparator `(a, b) => a.order - b.order`
  (a stable ascending sort) is `List.insertionSort` with `a.order ≤ b.order`,
  which is stable and ascending.
* `while` loops and recursions that can diverge on defective inputs are
  embedded with an explicit fuel parameter and return `Option`; `none` means
  the fuel ran out, i.e. the source loop did not terminate within that bound.
* `Math.round` is `round : ℚ → ℤ` (floor of x + 1/2, matching JS on the
  non-negative values that occur here); `Math.max` is `max`.
-/

/-- Node record, from `src/types/node.ts` (`TreeNode`). `status` and
`priority` are the literal strings of the TS union types. -/
structure TreeNode where
  id : String
  projectId : String
  parentId : Option String
  title : String
  description : Option String
  notes : Option String
  status : String
  completedAt : Option Nat
  priority : String
  estimatedHours : Option ℚ
  dueDate : Option Nat
  position : ℚ × ℚ
  order : ℚ
  isCollapsed : Bool
  createdAt : Nat
  updatedAt : Nat
  deriving DecidableEq, Repr

/-- Result of the progress aggregator, from `src/types/node.ts`
(`NodeProgress`); `percentage` is integer-valued (`Math.round`). -/
structure NodeProgress where
  completed : Nat
  total : Nat
  percentage : ℤ
  deriving DecidableEq, Repr

/-- Node size / scaling configuration, from `src/types/project.ts`
(`NodeSizeSettings`). -/
structure NodeSizeSettings where
  baseWidth : ℚ
  baseHeight : ℚ
  depthScalePercent : ℚ
  minScalePercent : ℚ
  deriving DecidableEq, Repr

/-- `nodes.find(n => n.id === id)` — first record with the given id. -/
def findNode (nodes : List TreeNode) (id : String) : Option TreeNode :=
  nodes.find? (fun n => n.id = id)

/-- `new Map(nodes.map(n => [n.id, n])).get(id)` — for duplicate ids the last
entry wins, hence the search over the reversed list. -/
def mapLookup (nodes : List TreeNode) (id : String) : Option TreeNode :=
  nodes.reverse.find? (fun n => n.id = id)

/-- Stable ascending sort by `order`, modelling
`.sort((a, b) => a.order - b.order)`. -/
def sortByOrder (l : List TreeNode) : List TreeNode :=
  List.insertionSort (fun a b => a.order ≤ b.order) l

/-- `getDirectChildren` from `src/utils/tree/traversal.ts`, specialised to a
string parent id (the only way the functions under verification call it):
filter by `parentId` and sort by `order`. -/
def getDirectChildren (nodes : List TreeNode) (parentId : String) : List TreeNode :=
  sortByOrder (nodes.filter (fun n => n.parentId = some parentId))

/-- All ids occurring in the list, in order. -/
def nodeIds (nodes : List TreeNode) : List String :=
  nodes.map (fun n => n.id)

section NodeService

/-- `UpdateNodeInput` from `src/types/node.ts`: every field optional. A field
that is `none` models a key absent from the partial-update object, so the JS
spread `{...node, ...input}` keeps the stored value. -/
structure UpdateNodeInput where
  parentId : Option (Option String) := none
  title : Option String := none
  description : Option (Option String) := none
  notes : Option (Option String) := none
  status : Option String := none
  priority : Option String := none
  estimatedHours : Option (Option ℚ) := none
  dueDate : Option (Option Nat) := none
  position : Option (ℚ × ℚ) := none
  order : Option ℚ := none
  isCollapsed : Option Bool := none
  deriving DecidableEq, Repr

/-- `CreateNodeInput` from `src/types/node.ts`. -/
structure CreateNodeInput where
  projectId : String
  parentId : Option String
  title : String
  description : Option (Option String) := none
  notes : Option (Option String) := none
  status : Option String := none
  priority : Option String := none
  estimatedHours : Option (Option ℚ) := none
  dueDate : Option (Option Nat) := none
  position : Option (ℚ × ℚ) := none
  order : Option ℚ := none
  isCollapsed : Option Bool := none
  deriving DecidableEq, Repr

/-- The JS spread `{...node, ...input}` for an update object, before the
`completedAt` / `updatedAt` overrides that follow it in the literal. -/
def spreadUpdate (node : TreeNode) (input : UpdateNodeInput) : TreeNode :=
  { node with
    parentId := input.parentId.getD node.parentId
    title := input.title.getD node.title
    description := input.description.getD node.description
    notes := input.notes.getD node.notes
    status := input.status.getD node.status
    priority := input.priority.getD node.priority
    estimatedHours := input.estimatedHours.getD node.estimatedHours
    dueDate := input.dueDate.getD node.dueDate
    position := input.position.getD node.position
    order := input.order.getD node.order
    isCollapsed := input.isCollapsed.getD node.isCollapsed }

/-- Replace the record(s) with the given id, modelling `db.nodes.put` keyed
by `id`. -/
def putNode (db : List TreeNode) (updated : TreeNode) : List TreeNode :=
  db.map (fun n => if n.id = updated.id then updated else n)

/-- `nodeService.update` from `src/services/storage/nodeService.ts`
(lines 283–300 of the export-service module named in the claims): read the
record, spread the partial input over it, then compute `completedAt` by the
source's conditional
`input.status === 'completed' && node.status !== 'completed' ? new Date()
 : input.status !== 'completed' ? null : node.completedAt`,
set `updatedAt`, and write back. Returns the updated record and the new
store, or `none` when the id is absent (`if (!node) return undefined`).
`now` models `new Date()`. -/
def nodeService.update (db : List TreeNode) (id : String) (input : UpdateNodeInput)
    (now : Nat) : Option (TreeNode × List TreeNode) :=
  match mapLookup db id with
  | none => none
  | some node =>
    let updated : TreeNode :=
      { spreadUpdate node input with
        completedAt :=
          if input.status = some "completed" ∧ node.status ≠ "completed" then some now
          else if input.status ≠ some "completed" then none
          else node.completedAt
        updatedAt := now }
    some (updated, putNode db updated)

/-- Maximum `order` among a list of siblings, `-1` when empty
(`siblings.length > 0 ? Math.max(...) : -1`). -/
def maxOrder (siblings : List TreeNode) : ℚ :=
  siblings.foldl (fun m s => max m s.order) (-1)

/-- `nodeService.create` from `src/services/storage/nodeService.ts`
(lines 248–281 of the module named in the claims): build the record with the
input's fields and the defaults of the source literal — in particular
`status: input.status ?? 'open'` and `completedAt: null` — and append it.
`newId` models `uuidv4()`, `now` models `new Date()`. -/
def nodeService.create (db : List TreeNode) (input : CreateNodeInput)
    (newId : String) (now : Nat) : TreeNode × List TreeNode :=
  let siblings :=
    match input.parentId with
    | some pid => getDirectChildren db pid
    | none => sortByOrder (db.filter (fun n => n.projectId = input.projectId ∧ n.parentId = none))
  let node : TreeNode :=
    { id := newId
      projectId := input.projectId
      parentId := input.parentId
      title := input.title
      description := input.description.getD none
      notes := input.notes.getD none
      status := input.status.getD "open"
      completedAt := none
      priority := input.priority.getD "medium"
      estimatedHours := input.estimatedHours.getD none
      dueDate := input.dueDate.getD none
      position := input.position.getD (0, 0)
      order := maxOrder siblings + 1
      isCollapsed := input.isCollapsed.getD false
      createdAt := now
      updatedAt := now }
  (node, db ++ [node])

end NodeService

/-- A stored node used in concrete counterexamples; only the fields named at
each use site matter. -/
def baseNode : TreeNode :=
  { id := "x", projectId := "P", parentId := none, title := "", description := none
    notes := none, status := "open", completedAt := none, priority := "medium"
    estimatedHours := none, dueDate := none, position := (0, 0), order := 0
    isCollapsed := false, createdAt := 0, updatedAt := 0 }

/-- A completed node with a recorded completion time, for the C3 analysis. -/
def c3Node : TreeNode :=
  { baseNode with id := "a", status := "completed", completedAt := some 5 }

/-- C3: the spec says `completedAt` is set exactly when `status` transitions
into "completed", cleared exactly when it leaves "completed", and is never
changed by an operation that does not change `status`. The code violates
this: `nodeService.update` with a partial input that omits `status` (here the
`{ parentId: null }` input that `moveToParent` sends) takes the branch
`input.status !== 'completed' → completedAt = null` and clears `completedAt`
of a node whose status is and remains "completed". This theorem evaluates
the embedded `nodeService.update` at that failing input: the updated record
still has `status = "completed"` but `completedAt = none`, so the claimed
if-and-only-if invariant is broken by the code. -/
theorem c3_completedAt_cleared_without_status_change :
    (nodeService.update [c3Node] "a" { parentId := some none } 10).map
      (fun r => (r.1.status, r.1.completedAt))
      = some ("completed", none)
    ∧ c3Node.status = "completed" ∧ c3Node.completedAt = some 5 := by
  decide

section Scale

/-- The accumulation loop of `getScaleAtDepth` in `src/utils/tree/layout.ts`:
`let scale = 1; for (let i = 1; i <= depth; i++) scale = scale * q`. -/
def scaleLoop (q : ℚ) : Nat → ℚ
  | 0 => 1
  | n + 1 => scaleLoop q n * q

/-- `getScaleAtDepth` from `src/utils/tree/layout.ts` lines 18–25:
returns 1 at depth 0, otherwise the loop product floored at
`minScalePercent / 100` via `Math.max`. -/
def getScaleAtDepth (depth : Nat) (nodeSize : NodeSizeSettings) : ℚ :=
  if depth = 0 then 1
  else max (scaleLoop (nodeSize.depthScalePercent / 100) depth)
      (nodeSize.minScalePercent / 100)

theorem scaleLoop_eq_pow (q : ℚ) (n : Nat) : scaleLoop q n = q ^ n := by
  induction n with
  | zero => simp [scaleLoop]
  | succ n ih => simp [scaleLoop, ih, pow_succ]

/-- `defaultNodeSize` from `src/utils/tree/layout.ts` lines 10–15. -/
def defaultNodeSize : NodeSizeSettings :=
  { baseWidth := 280, baseHeight := 120, depthScalePercent := 85, minScalePercent := 50 }

/-- A configuration with `depthScalePercent > 100`. -/
def nsAbove : NodeSizeSettings := { defaultNodeSize with depthScalePercent := 200 }

/-- A configuration with a negative `depthScalePercent`. -/
def nsNeg : NodeSizeSettings := { defaultNodeSize with depthScalePercent := -200 }

/-- A configuration with `minScalePercent > 100`. -/
def nsBigMin : NodeSizeSettings := { defaultNodeSize with minScalePercent := 150 }

/-- C5 counterexample: the claim quantifies over every size configuration,
but each of its three conjuncts fails on some configuration.
With `depthScalePercent = 200` the scale doubles per level, so it is not
non-increasing; with `depthScalePercent = -200` the powers alternate in sign
and again increase from depth 1 to depth 2; with `minScalePercent = 150` the
code still returns 1 at depth 0 (its `depth === 0` early return skips the
floor), so the claimed closed form `max(minScalePercent/100, …)` and the
claimed floor `scale ≥ minScalePercent/100` both fail at depth 0. -/
theorem c5_counterexample :
    getScaleAtDepth 0 nsAbove < getScaleAtDepth 1 nsAbove
    ∧ getScaleAtDepth 1 nsNeg < getScaleAtDepth 2 nsNeg
    ∧ getScaleAtDepth 0 nsBigMin
        ≠ max (nsBigMin.minScalePercent / 100) ((nsBigMin.depthScalePercent / 100) ^ 0)
    ∧ getScaleAtDepth 0 nsBigMin < nsBigMin.minScalePercent / 100 := by
  refine ⟨?_, ?_, ?_, ?_⟩ <;>
    · simp [getScaleAtDepth, scaleLoop, nsAbove, nsNeg, nsBigMin, defaultNodeSize]
      norm_num

/-- C5 (amended): for configurations with `0 ≤ depthScalePercent ≤ 100` and
`minScalePercent ≤ 100` — the ranges the settings form offers — the claim
holds as stated: `getScaleAtDepth d` equals
`max(minScalePercent/100, (depthScalePercent/100)^d)`, equals 1 at depth 0,
is non-increasing in the depth, and never falls below
`minScalePercent/100`. -/
theorem c5_scale_closed_form (ns : NodeSizeSettings)
    (h0 : 0 ≤ ns.depthScalePercent) (h1 : ns.depthScalePercent ≤ 100)
    (h2 : ns.minScalePercent ≤ 100) :
    (∀ d : Nat, getScaleAtDepth d ns
        = max (ns.minScalePercent / 100) ((ns.depthScalePercent / 100) ^ d))
    ∧ getScaleAtDepth 0 ns = 1
    ∧ (∀ d e : Nat, d ≤ e → getScaleAtDepth e ns ≤ getScaleAtDepth d ns)
    ∧ (∀ d : Nat, ns.minScalePercent / 100 ≤ getScaleAtDepth d ns) := by
  have hq0 : (0 : ℚ) ≤ ns.depthScalePercent / 100 := by positivity
  have hq1 : ns.depthScalePercent / 100 ≤ 1 := by
    rw [div_le_one (by norm_num)]; exact h1
  have hm1 : ns.minScalePercent / 100 ≤ 1 := by
    rw [div_le_one (by norm_num)]; exact h2
  have hform : ∀ d : Nat, getScaleAtDepth d ns
      = max (ns.minScalePercent / 100) ((ns.depthScalePercent / 100) ^ d) := by
    intro d
    cases d with
    | zero => simp [getScaleAtDepth, max_eq_right hm1]
    | succ n =>
      simp only [getScaleAtDepth, if_neg (Nat.succ_ne_zero n), scaleLoop_eq_pow]
      exact max_comm _ _
  refine ⟨hform, by simp [getScaleAtDepth], ?_, ?_⟩
  · intro d e hde
    rw [hform d, hform e]
    exact max_le_max (le_refl _) (pow_le_pow_of_le_one hq0 hq1 hde)
  · intro d
    rw [hform d]
    exact le_max_left _ _

/-- Witness for C5 (amended) at the source's default configuration. -/
theorem c5_scale_closed_form_witness :
    (0 ≤ defaultNodeSize.depthScalePercent ∧ defaultNodeSize.depthScalePercent ≤ 100
      ∧ defaultNodeSize.minScalePercent ≤ 100)
    ∧ ((∀ d : Nat, getScaleAtDepth d defaultNodeSize
        = max (defaultNodeSize.minScalePercent / 100)
            ((defaultNodeSize.depthScalePercent / 100) ^ d))
      ∧ getScaleAtDepth 0 defaultNodeSize = 1
      ∧ (∀ d e : Nat, d ≤ e →
          getScaleAtDepth e defaultNodeSize ≤ getScaleAtDepth d defaultNodeSize)
      ∧ (∀ d : Nat, defaultNodeSize.minScalePercent / 100
          ≤ getScaleAtDepth d defaultNodeSize)) :=
  ⟨⟨by decide, by decide, by decide⟩,
    c5_scale_closed_form defaultNodeSize (by decide) (by decide) (by decide)⟩

section Progress

/-- Sequence a fallible function over a list, modelling a `for … of` loop in
which every step must succeed (the fuel-based recursions below fail by
returning `none`). This is `mapM` for `Option`, written recursively so that
proofs can unfold it. -/
def optionMapList (f : α → Option β) : List α → Option (List β)
  | [] => some []
  | a :: l =>
    match f a with
    | none => none
    | some b => (optionMapList f l).map (fun bs => b :: bs)

/-- `calculateNodeProgress` from `src/utils/tree/progress.ts` lines 4–31,
with fuel for the recursion over children (the source recursion diverges on
cyclic `parentId` data): a node with no direct children contributes
`{completed: status === 'completed' ? 1 : 0, total: 1, percentage: 100·completed}`;
otherwise the children's results are summed and the percentage is
`total > 0 ? Math.round(completed/total·100) : 0`. -/
def calculateNodeProgressF (nodes : List TreeNode) : Nat → String → Option NodeProgress
  | 0, _ => none
  | fuel + 1, nodeId =>
    if getDirectChildren nodes nodeId = [] then
      some { completed :=
               if (findNode nodes nodeId).map (fun n => n.status) = some "completed" then 1 else 0
             total := 1
             percentage :=
               ((if (findNode nodes nodeId).map (fun n => n.status) = some "completed"
                 then 1 else 0 : Nat) : ℤ) * 100 }
    else
      match optionMapList (fun c => calculateNodeProgressF nodes fuel c.id)
          (getDirectChildren nodes nodeId) with
      | none => none
      | some cps =>
        some { completed := (cps.map (fun p => p.completed)).sum
               total := (cps.map (fun p => p.total)).sum
               percentage :=
                 if 0 < (cps.map (fun p => p.total)).sum then
                   round (((cps.map (fun p => p.completed)).sum : ℚ)
                     / ((cps.map (fun p => p.total)).sum : ℚ) * 100)
                 else 0 }

/-- `calculateNodeProgress` at the fuel that suffices for every valid forest
(proved below): one unit per level of a parent chain, plus one. -/
def calculateNodeProgress (nodes : List TreeNode) (nodeId : String) : Option NodeProgress :=
  calculateNodeProgressF nodes (nodes.length + 1) nodeId

/-- `shouldAutoCompleteParent` from `src/utils/tree/progress.ts` lines 56–67:
false for a childless parent, otherwise true iff every direct child is
completed or already queued in `pendingCompleted`. The pending set is
represented by the list of queued ids. -/
def shouldAutoCompleteParent (nodes : List TreeNode) (parentId : String)
    (pendingCompleted : List String) : Bool :=
  let children := getDirectChildren nodes parentId
  if children = [] then false
  else children.all (fun child =>
    child.status == "completed" || pendingCompleted.contains child.id)

/-- The `while` loop of `getParentsToAutoComplete`
(`src/utils/tree/progress.ts` lines 75–90). The accumulator doubles as the
`pendingCompleted` set: the source pushes exactly the ids it adds to the set,
and only membership is ever consulted. Fuel bounds the number of pushes. -/
def autoCompleteLoop (nodes : List TreeNode) :
    Nat → Option TreeNode → List String → Option (List String)
  | fuel, cur, acc =>
    match cur with
    | none => some acc
    | some current =>
      match current.parentId with
      | none => some acc
      | some pid =>
        match mapLookup nodes pid with
        | none => some acc
        | some parent =>
          if parent.status = "completed" then some acc
          else if shouldAutoCompleteParent nodes parent.id acc then
            match fuel with
            | 0 => none
            | fuel' + 1 => autoCompleteLoop nodes fuel' (some parent) (acc ++ [parent.id])
          else some acc

/-- `getParentsToAutoComplete` from `src/utils/tree/progress.ts` lines 69–93.
Note the source seeds `pendingCompleted` as an empty set: despite its comment,
the triggering node is never added to it. Fuel `nodes.length + 2` is enough
for every terminating run (shown for C10). -/
def getParentsToAutoComplete (nodes : List TreeNode) (nodeId : String) :
    Option (List String) :=
  autoCompleteLoop nodes (nodes.length + 2) (mapLookup nodes nodeId) []

/-- Modelled from the spec's words (§4.3 Auto-Complete Propagator, step 2),
for the refinement comparison of C1: identical walk, except that the check is
"every direct child of P has status completed, or is itself in
`pending` ∪ {the node that triggered this step}" — the triggering node's id
is accepted alongside the pending set, and the "every" is the plain universal
quantifier (vacuously true for a childless parent). -/
def specAutoCompleteLoop (nodes : List TreeNode) (nodeId : String) :
    Nat → Option TreeNode → List String → Option (List String)
  | fuel, cur, acc =>
    match cur with
    | none => some acc
    | some current =>
      match current.parentId with
      | none => some acc
      | some pid =>
        match mapLookup nodes pid with
        | none => some acc
        | some parent =>
          if parent.status = "completed" then some acc
          else if ∀ c ∈ getDirectChildren nodes parent.id,
              c.status = "completed" ∨ c.id ∈ acc ∨ c.id = nodeId then
            match fuel with
            | 0 => none
            | fuel' + 1 =>
              specAutoCompleteLoop nodes nodeId fuel' (some parent) (acc ++ [parent.id])
          else some acc

/-- The spec's ancestor walk (§4.3), seeded like the source. -/
def specAutoComplete (nodes : List TreeNode) (nodeId : String) : Option (List String) :=
  specAutoCompleteLoop nodes nodeId (nodes.length + 2) (mapLookup nodes nodeId) []

/-- A two-node list for the C1 counterexample: `cOpenChild` has not (yet)
been transitioned to "completed" in the snapshot. -/
def cOpenChild : TreeNode := { baseNode with id := "n", parentId := some "p" }

/-- The parent of `cOpenChild`. -/
def cOpenParent : TreeNode := { baseNode with id := "p" }

/-- C1 counterexample: for the node list `[cOpenChild, cOpenParent]` and
triggering node `"n"` (status "open" in the snapshot), the spec's walk
completes the parent `"p"` — the only direct child of `"p"` is the triggering
node itself, which the spec counts via `pending ∪ {n}` — but the source never
adds the triggering node to `pendingCompleted`, finds a child that is neither
completed nor pending, and returns the empty list. So the claim's universal
quantification over every node list fails: it holds only when the triggering
node is already recorded as completed in the snapshot. -/
theorem c1_counterexample :
    getParentsToAutoComplete [cOpenChild, cOpenParent] "n"
        ≠ specAutoComplete [cOpenChild, cOpenParent] "n"
    ∧ getParentsToAutoComplete [cOpenChild, cOpenParent] "n" = some []
    ∧ specAutoComplete [cOpenChild, cOpenParent] "n" = some ["p"] := by
  refine ⟨?_, ?_, ?_⟩ <;> decide

theorem mem_of_mapLookup {nodes : List TreeNode} {id : String} {n : TreeNode}
    (h : mapLookup nodes id = some n) : n ∈ nodes ∧ n.id = id := by
  unfold mapLookup at h
  have h1 := List.find?_some h
  have h2 := List.mem_of_find?_eq_some h
  exact ⟨List.mem_reverse.mp h2, by simpa using h1⟩

theorem mem_of_findNode {nodes : List TreeNode} {id : String} {n : TreeNode}
    (h : findNode nodes id = some n) : n ∈ nodes ∧ n.id = id := by
  unfold findNode at h
  have h1 := List.find?_some h
  have h2 := List.mem_of_find?_eq_some h
  exact ⟨h2, by simpa using h1⟩

theorem nodup_id_unique {nodes : List TreeNode} (hnd : (nodeIds nodes).Nodup)
    {a b : TreeNode} (ha : a ∈ nodes) (hb : b ∈ nodes) (hid : a.id = b.id) : a = b :=
  List.inj_on_of_nodup_map hnd ha hb hid

theorem mem_getDirectChildren_iff {nodes : List TreeNode} {pid : String} {c : TreeNode} :
    c ∈ getDirectChildren nodes pid ↔ c ∈ nodes ∧ c.parentId = some pid := by
  unfold getDirectChildren sortByOrder
  rw [(List.perm_insertionSort _ _).mem_iff]
  simp [List.mem_filter]

theorem shouldAuto_iff (nodes : List TreeNode) (pid : String) (pending : List String) :
    shouldAutoCompleteParent nodes pid pending = true ↔
      getDirectChildren nodes pid ≠ []
      ∧ ∀ c ∈ getDirectChildren nodes pid, c.status = "completed" ∨ c.id ∈ pending := by
  unfold shouldAutoCompleteParent
  by_cases h : getDirectChildren nodes pid = [] <;>
    simp [h, List.all_eq_true, Bool.or_eq_true]

theorem cond_equiv {nodes : List TreeNode} {nId : String} {n : TreeNode}
    (hnd : (nodeIds nodes).Nodup) (hn : findNode nodes nId = some n)
    (hc : n.status = "completed") {current parent : TreeNode} (hcur : current ∈ nodes)
    (hpid : current.parentId = some parent.id) (acc : List String) :
    shouldAutoCompleteParent nodes parent.id acc = true ↔
      ∀ c ∈ getDirectChildren nodes parent.id,
        c.status = "completed" ∨ c.id ∈ acc ∨ c.id = nId := by
  rw [shouldAuto_iff]
  constructor
  · rintro ⟨-, h⟩ c hcmem
    rcases h c hcmem with h1 | h2
    · exact Or.inl h1
    · exact Or.inr (Or.inl h2)
  · intro h
    constructor
    · intro he
      have hmem : current ∈ getDirectChildren nodes parent.id :=
        mem_getDirectChildren_iff.mpr ⟨hcur, hpid⟩
      rw [he] at hmem
      exact (List.not_mem_nil current) hmem
    · intro c hcmem
      rcases h c hcmem with h1 | h2 | h3
      · exact Or.inl h1
      · exact Or.inr h2
      · left
        have hcm := (mem_getDirectChildren_iff.mp hcmem).1
        have heq : c = n :=
          nodup_id_unique hnd hcm (mem_of_findNode hn).1
            (h3.trans (mem_of_findNode hn).2.symm)
        rw [heq]; exact hc

theorem autoCompleteLoop_eq_spec {nodes : List TreeNode} {nId : String} {n : TreeNode}
    (hnd : (nodeIds nodes).Nodup) (hn : findNode nodes nId = some n)
    (hc : n.status = "completed") :
    ∀ (fuel : Nat) (cur : Option TreeNode) (acc : List String),
      (∀ c, cur = some c → c ∈ nodes) →
      autoCompleteLoop nodes fuel cur acc = specAutoCompleteLoop nodes nId fuel cur acc := by
  intro fuel
  induction fuel with
  | zero =>
    intro cur acc hcur
    rcases cur with _ | current
    · rfl
    · rw [autoCompleteLoop, specAutoCompleteLoop]
      dsimp only
      rcases hpid : current.parentId with _ | pid
      · rfl
      · dsimp only
        rcases hpl : mapLookup nodes pid with _ | parent
        · rfl
        · dsimp only
          by_cases hcomp : parent.status = "completed"
          · rw [if_pos hcomp, if_pos hcomp]
          · rw [if_neg hcomp, if_neg hcomp]
            have hpe : current.parentId = some parent.id := by
              rw [hpid, (mem_of_mapLookup hpl).2]
            have hcond := cond_equiv hnd hn hc (hcur current rfl) hpe acc
            by_cases hs : shouldAutoCompleteParent nodes parent.id acc = true
            · rw [if_pos hs, if_pos (hcond.mp hs)]
            · rw [if_neg hs, if_neg (fun hx => hs (hcond.mpr hx))]
  | succ fuel ih =>
    intro cur acc hcur
    rcases cur with _ | current
    · rfl
    · rw [autoCompleteLoop, specAutoCompleteLoop]
      dsimp only
      rcases hpid : current.parentId with _ | pid
      · rfl
      · dsimp only
        rcases hpl : mapLookup nodes pid with _ | parent
        · rfl
        · dsimp only
          by_cases hcomp : parent.status = "completed"
          · rw [if_pos hcomp, if_pos hcomp]
          · rw [if_neg hcomp, if_neg hcomp]
            have hpe : current.parentId = some parent.id := by
              rw [hpid, (mem_of_mapLookup hpl).2]
            have hcond := cond_equiv hnd hn hc (hcur current rfl) hpe acc
            by_cases hs : shouldAutoCompleteParent nodes parent.id acc = true
            · rw [if_pos hs, if_pos (hcond.mp hs)]
              exact ih (some parent) (acc ++ [parent.id])
                (fun c h => by cases h; exact (mem_of_mapLookup hpl).1)
            · rw [if_neg hs, if_neg (fun hx => hs (hcond.mpr hx))]

/-- C1 (amended): for every node list with pairwise-distinct ids in which the
triggering node's record has status "completed" — the situation the caller
(`treeStore.updateNode`) always establishes before the call, since it applies
the status update to the snapshot first — `getParentsToAutoComplete` returns
exactly the ancestor chain of the spec's walk (§4.3), including its
"pending ∪ {triggering node}" child test, its stop-at-first-failure rule and
its nearest-ancestor-first order. Without that restriction the claim fails,
see the counterexample: the source never seeds the pending set with the
triggering node. -/
theorem c1_autoComplete_matches_spec (nodes : List TreeNode) (nId : String)
    (n : TreeNode) (hnd : (nodeIds nodes).Nodup) (hn : findNode nodes nId = some n)
    (hc : n.status = "completed") :
    getParentsToAutoComplete nodes nId = specAutoComplete nodes nId := by
  unfold getParentsToAutoComplete specAutoComplete
  exact autoCompleteLoop_eq_spec hnd hn hc _ _ []
    (fun c h => (mem_of_mapLookup h).1)

/-- A triggering node already recorded as completed, for the C1 witness. -/
def cDoneChild : TreeNode :=
  { baseNode with id := "n", parentId := some "p", status := "completed" }

/-- Witness for C1 (amended) on a concrete two-node list. -/
theorem c1_autoComplete_matches_spec_witness :
    ((nodeIds [cDoneChild, cOpenParent]).Nodup
      ∧ findNode [cDoneChild, cOpenParent] "n" = some cDoneChild
      ∧ cDoneChild.status = "completed")
    ∧ getParentsToAutoComplete [cDoneChild, cOpenParent] "n"
        = specAutoComplete [cDoneChild, cOpenParent] "n" :=
  ⟨⟨by decide, by decide, by decide⟩,
    c1_autoComplete_matches_spec [cDoneChild, cOpenParent] "n" cDoneChild
      (by decide) (by decide) (by decide)⟩

/-- Invariant of the auto-complete walk. `acc` is both the result list and
the pending set; the last conjunct records, for every id already pushed, the
child condition that held at the moment it was pushed (only ids pushed
earlier were pending then). -/
def AutoInv (nodes : List TreeNode) (acc : List String) (cur : TreeNode) : Prop :=
  cur ∈ nodes
  ∧ acc.Nodup
  ∧ (∀ p ∈ acc, ∃ r, mapLookup nodes p = some r ∧ r.status ≠ "completed")
  ∧ (acc = [] ∨ (∃ a', acc = a' ++ [cur.id] ∧ mapLookup nodes cur.id = some cur))
  ∧ (∀ a1 p a2, acc = a1 ++ p :: a2 →
      ∀ c ∈ nodes, c.parentId = some p → c.status = "completed" ∨ c.id ∈ a1)

theorem autoInv_step {nodes : List TreeNode} {acc : List String} {cur parent : TreeNode}
    {pid : String} (inv : AutoInv nodes acc cur) (hpid : cur.parentId = some pid)
    (hpl : mapLookup nodes pid = some parent) (hnc : parent.status ≠ "completed")
    (hs : shouldAutoCompleteParent nodes parent.id acc = true) :
    AutoInv nodes (acc ++ [parent.id]) parent := by
  obtain ⟨hcm, hnd, hrec, hlink, hhist⟩ := inv
  have hpe : parent.id = pid := (mem_of_mapLookup hpl).2
  have hplp : mapLookup nodes parent.id = some parent := by rw [hpe]; exact hpl
  have hcurp : cur.parentId = some parent.id := by rw [hpid, hpe]
  have hchild := (shouldAuto_iff nodes parent.id acc).mp hs
  have hnotmem : parent.id ∉ acc := by
    intro hmem
    obtain ⟨a1, a2, hsplit⟩ := List.append_of_mem hmem
    have hcond := hhist a1 parent.id a2 hsplit cur hcm hcurp
    rcases hlink with hnil | ⟨a', hacc, hcl⟩
    · rw [hnil] at hsplit
      exact absurd hsplit.symm (List.append_ne_nil_of_right_ne_nil a1 (by simp))
    · have hcurnc : cur.status ≠ "completed" := by
        obtain ⟨r, hr, hrnc⟩ := hrec cur.id (by rw [hacc]; simp)
        rw [hcl] at hr
        cases hr
        exact hrnc
      have hina1 : cur.id ∈ a1 := by
        rcases hcond with h | h
        · exact absurd h hcurnc
        · exact h
      have hnota : cur.id ∉ a' := by
        have := hnd
        rw [hacc] at this
        intro hx
        exact (List.disjoint_of_nodup_append this) hx (by simp)
      rcases List.eq_nil_or_concat a2 with h2 | ⟨b, x, hb⟩
      · rw [h2] at hsplit
        rw [hacc] at hsplit
        have := List.append_inj' hsplit.symm rfl
        exact hnota (this.1 ▸ hina1)
      · rw [hb, List.concat_eq_append] at hsplit
        have hre : a1 ++ parent.id :: (b ++ [x]) = (a1 ++ parent.id :: b) ++ [x] := by simp
        rw [hre, hacc] at hsplit
        have := List.append_inj' hsplit.symm rfl
        have hsub : cur.id ∈ a' := by
          rw [← this.1]
          exact List.mem_append_left _ hina1
        exact hnota hsub
  refine ⟨(mem_of_mapLookup hpl).1, ?_, ?_, ?_, ?_⟩
  · exact hnd.append (List.nodup_singleton _)
      (fun a ha hb => by simp at hb; exact absurd (hb ▸ ha) hnotmem)
  · intro p hp
    rcases List.mem_append.mp hp with h | h
    · exact hrec p h
    · simp at h
      subst h
      exact ⟨parent, hplp, hnc⟩
  · exact Or.inr ⟨acc, rfl, hplp⟩
  · intro a1 p a2 hsplit c hcmem hcp
    rcases List.eq_nil_or_concat a2 with h2 | ⟨b, x, hb⟩
    · rw [h2] at hsplit
      have h12 := List.append_inj' hsplit rfl
      have hpeq : p = parent.id := by
        have := h12.2
        simp at this
        exact this.symm
      have ha1 : acc = a1 := h12.1
      rcases hchild.2 c (mem_getDirectChildren_iff.mpr ⟨hcmem, hpeq ▸ hcp⟩) with h | h
      · exact Or.inl h
      · exact Or.inr (ha1 ▸ h)
    · rw [hb, List.concat_eq_append] at hsplit
      have hre : a1 ++ p :: (b ++ [x]) = (a1 ++ p :: b) ++ [x] := by simp
      rw [hre] at hsplit
      have h12 := List.append_inj' hsplit rfl
      exact hhist a1 p b h12.1 c hcmem hcp

/-- The properties C10 needs of a finished accumulator. -/
def AccProps (nodes : List TreeNode) (acc : List String) : Prop :=
  acc.Nodup ∧ ∀ p ∈ acc, ∃ r, mapLookup nodes p = some r ∧ r.status ≠ "completed"

theorem accProps_of_autoInv {nodes : List TreeNode} {acc : List String} {cur : TreeNode}
    (inv : AutoInv nodes acc cur) : AccProps nodes acc :=
  ⟨inv.2.1, inv.2.2.1⟩

theorem acc_length_le {nodes : List TreeNode} {acc : List String}
    (h : AccProps nodes acc) : acc.length ≤ (nodeIds nodes).dedup.length := by
  refine List.Subperm.length_le (h.1.subperm ?_)
  intro p hp
  obtain ⟨r, hr, -⟩ := h.2 p hp
  rw [List.mem_dedup]
  have := mem_of_mapLookup hr
  exact this.2 ▸ List.mem_map_of_mem (fun n => n.id) this.1

theorem autoCompleteLoop_some {nodes : List TreeNode} :
    ∀ (fuel : Nat) (acc : List String) (cur : TreeNode), AutoInv nodes acc cur →
      (nodeIds nodes).dedup.length + 1 ≤ fuel + acc.length →
      ∃ res, autoCompleteLoop nodes fuel (some cur) acc = some res
        ∧ AccProps nodes res := by
  intro fuel
  induction fuel with
  | zero =>
    intro acc cur inv hbound
    have := acc_length_le (accProps_of_autoInv inv)
    omega
  | succ fuel ih =>
    intro acc cur inv hbound
    rw [autoCompleteLoop]
    dsimp only
    rcases hpid : cur.parentId with _ | pid
    · exact ⟨acc, rfl, accProps_of_autoInv inv⟩
    · dsimp only
      rcases hpl : mapLookup nodes pid with _ | parent
      · exact ⟨acc, rfl, accProps_of_autoInv inv⟩
      · dsimp only
        by_cases hcomp : parent.status = "completed"
        · rw [if_pos hcomp]
          exact ⟨acc, rfl, accProps_of_autoInv inv⟩
        · rw [if_neg hcomp]
          by_cases hs : shouldAutoCompleteParent nodes parent.id acc = true
          · rw [if_pos hs]
            have inv' := autoInv_step inv hpid hpl hcomp hs
            have hb' : (nodeIds nodes).dedup.length + 1
                ≤ fuel + (acc ++ [parent.id]).length := by
              simp only [List.length_append, List.length_singleton]
              omega
            exact ih (acc ++ [parent.id]) parent inv' hb'
          · rw [if_neg hs]
            exact ⟨acc, rfl, accProps_of_autoInv inv⟩

/-- C10: for every input node list — cyclic or dangling parent chains and
arbitrary statuses included — `getParentsToAutoComplete` terminates (the
walk exits within `nodes.length + 2` iterations, returning `some`), its
result repeats no id, and no returned id's stored record (the one the
source's node map resolves) has status "completed" in the input snapshot. -/
theorem c10_autoComplete_terminates_nodup_noncompleted
    (nodes : List TreeNode) (nodeId : String) :
    ∃ res, getParentsToAutoComplete nodes nodeId = some res
      ∧ res.Nodup
      ∧ ∀ p ∈ res, ∃ r, mapLookup nodes p = some r ∧ r.status ≠ "completed" := by
  unfold getParentsToAutoComplete
  rcases hstart : mapLookup nodes nodeId with _ | c
  · exact ⟨[], rfl, List.nodup_nil, by simp⟩
  · have inv : AutoInv nodes [] c :=
      ⟨(mem_of_mapLookup hstart).1, List.nodup_nil, by simp, Or.inl rfl,
        fun a1 p a2 h => absurd h.symm (List.append_ne_nil_of_right_ne_nil a1 (by simp))⟩
    have hded : (nodeIds nodes).dedup.length ≤ nodes.length := by
      have h1 := List.Sublist.length_le (List.dedup_sublist (nodeIds nodes))
      simpa [nodeIds] using h1
    obtain ⟨res, hres, hprops⟩ :=
      autoCompleteLoop_some (nodes.length + 2) [] c inv (by simp; omega)
    exact ⟨res, hres, hprops.1, hprops.2⟩

section DepthForest

/-- The parent-chain walk shared by `calculateNodeDepth` and the `getDepth`
closure in `src/utils/tree/layout.ts` lines 97–105: count one step per
resolved `parentId` (a dangling `parentId` still counts its step, then the
walk stops because `nodes.find` returns `undefined`). Fuel bounds the steps;
the source loop diverges on a reachable `parentId` cycle. -/
def depthWalk (nodes : List TreeNode) : Nat → Option TreeNode → Option Nat
  | fuel, cur =>
    match cur with
    | none => some 0
    | some c =>
      match c.parentId with
      | none => some 0
      | some pid =>
        match fuel with
        | 0 => none
        | fuel' + 1 => (depthWalk nodes fuel' (findNode nodes pid)).map (fun d => d + 1)

/-- `calculateNodeDepth` from `src/utils/tree/layout.ts` lines 54–65, at fuel
`nodes.length` (enough for every terminating walk over distinct records). -/
def calculateNodeDepth (nodes : List TreeNode) (nodeId : String) : Option Nat :=
  depthWalk nodes nodes.length (findNode nodes nodeId)

/-- A valid forest, as the data-model invariants describe the store: ids are
pairwise distinct, every non-null `parentId` resolves to a record in the
list, and every parent chain terminates (no node is its own ancestor). -/
def validForest (nodes : List TreeNode) : Prop :=
  (nodeIds nodes).Nodup
  ∧ (∀ n ∈ nodes, n.parentId.all (fun pid => (findNode nodes pid).isSome) = true)
  ∧ (∀ n ∈ nodes, (calculateNodeDepth nodes n.id).isSome = true)

instance (nodes : List TreeNode) : Decidable (validForest nodes) := by
  unfold validForest
  infer_instance

theorem findNode_self {nodes : List TreeNode} (hnd : (nodeIds nodes).Nodup)
    {c : TreeNode} (hc : c ∈ nodes) : findNode nodes c.id = some c := by
  have hsome : (nodes.find? (fun n => n.id = c.id)).isSome :=
    List.find?_isSome.mpr ⟨c, hc, by simp⟩
  obtain ⟨r, hr⟩ := Option.isSome_iff_exists.mp hsome
  have hrid : r.id = c.id := by simpa using List.find?_some hr
  have hrm : r ∈ nodes := List.mem_of_find?_eq_some hr
  have heq : r = c := nodup_id_unique hnd hrm hc hrid
  rw [heq] at hr
  exact hr

theorem mapLookup_self {nodes : List TreeNode} (hnd : (nodeIds nodes).Nodup)
    {c : TreeNode} (hc : c ∈ nodes) : mapLookup nodes c.id = some c := by
  have hsome : (nodes.reverse.find? (fun n => n.id = c.id)).isSome :=
    List.find?_isSome.mpr ⟨c, List.mem_reverse.mpr hc, by simp⟩
  obtain ⟨r, hr⟩ := Option.isSome_iff_exists.mp hsome
  have hrid : r.id = c.id := by simpa using List.find?_some hr
  have hrm : r ∈ nodes := List.mem_reverse.mp (List.mem_of_find?_eq_some hr)
  have heq : r = c := nodup_id_unique hnd hrm hc hrid
  rw [heq] at hr
  exact hr

theorem depthWalk_le {nodes : List TreeNode} :
    ∀ {fuel : Nat} {cur : Option TreeNode} {d : Nat},
      depthWalk nodes fuel cur = some d → d ≤ fuel := by
  intro fuel
  induction fuel with
  | zero =>
    intro cur d h
    rcases cur with _ | c
    · simp [depthWalk] at h
      omega
    · rw [depthWalk] at h
      dsimp only at h
      rcases hpid : c.parentId with _ | pid <;> rw [hpid] at h <;> dsimp only at h
      · simp at h
        omega
      · exact absurd h (by simp)
  | succ fuel ih =>
    intro cur d h
    rcases cur with _ | c
    · simp [depthWalk] at h
      omega
    · rw [depthWalk] at h
      dsimp only at h
      rcases hpid : c.parentId with _ | pid <;> rw [hpid] at h <;> dsimp only at h
      · simp at h
        omega
      · rcases hw : depthWalk nodes fuel (findNode nodes pid) with _ | d'
        · rw [hw] at h
          exact absurd h (by simp)
        · rw [hw] at h
          simp at h
          have := ih hw
          omega

theorem depthWalk_mono {nodes : List TreeNode} :
    ∀ {f1 f2 : Nat} {cur : Option TreeNode} {d : Nat}, f1 ≤ f2 →
      depthWalk nodes f1 cur = some d → depthWalk nodes f2 cur = some d := by
  intro f1
  induction f1 with
  | zero =>
    intro f2 cur d hle h
    rcases cur with _ | c
    · simpa [depthWalk] using h
    · rw [depthWalk] at h
      dsimp only at h
      rcases hpid : c.parentId with _ | pid <;> rw [hpid] at h <;> (try dsimp only at h)
      · rw [depthWalk]
        try dsimp only
        rw [hpid]
        exact h
      · exact absurd h (by simp)
  | succ f1 ih =>
    intro f2 cur d hle h
    rcases cur with _ | c
    · simpa [depthWalk] using h
    · rw [depthWalk] at h
      dsimp only at h
      rcases hpid : c.parentId with _ | pid <;> rw [hpid] at h <;> (try dsimp only at h)
      · rw [depthWalk]
        try dsimp only
        rw [hpid]
        exact h
      · rcases hw : depthWalk nodes f1 (findNode nodes pid) with _ | d'
        · rw [hw] at h
          exact absurd h (by simp)
        · rw [hw] at h
          simp at h
          obtain ⟨g2, hg2⟩ : ∃ g2, f2 = g2 + 1 := ⟨f2 - 1, by omega⟩
          subst hg2
          rw [depthWalk]
          dsimp only
          rw [hpid]
          dsimp only
          rw [ih (by omega) hw]
          simp [h]

theorem validForest_parent {nodes : List TreeNode} (hvf : validForest nodes)
    {c : TreeNode} (hc : c ∈ nodes) {pid : String} (hp : c.parentId = some pid) :
    ∃ p, findNode nodes pid = some p ∧ p ∈ nodes ∧ p.id = pid := by
  have h := hvf.2.1 c hc
  rw [hp] at h
  simp [Option.all] at h
  obtain ⟨p, hp2⟩ := Option.isSome_iff_exists.mp h
  exact ⟨p, hp2, (mem_of_findNode hp2).1, (mem_of_findNode hp2).2⟩

theorem depth_any {nodes : List TreeNode} (hvf : validForest nodes) (id : String) :
    ∃ d, calculateNodeDepth nodes id = some d ∧ d ≤ nodes.length := by
  rcases hf : findNode nodes id with _ | n
  · refine ⟨0, ?_, Nat.zero_le _⟩
    unfold calculateNodeDepth
    rw [hf, depthWalk]
  · have hnm := mem_of_findNode hf
    have h := hvf.2.2 n hnm.1
    obtain ⟨d, hd⟩ := Option.isSome_iff_exists.mp h
    refine ⟨d, ?_, depthWalk_le (by unfold calculateNodeDepth at hd; exact hd)⟩
    unfold calculateNodeDepth at hd ⊢
    rw [← hnm.2]
    exact hd

theorem depth_child {nodes : List TreeNode} (hvf : validForest nodes)
    {c : TreeNode} (hc : c ∈ nodes) {pid : String} {d : Nat}
    (hcp : c.parentId = some pid) (hd : calculateNodeDepth nodes pid = some d) :
    calculateNodeDepth nodes c.id = some (d + 1) ∧ d + 1 ≤ nodes.length := by
  obtain ⟨dc, hdc, hbc⟩ := depth_any hvf c.id
  have hself : findNode nodes c.id = some c := findNode_self hvf.1 hc
  have h1 : depthWalk nodes (nodes.length + 1) (some c) = some (d + 1) := by
    rw [depthWalk]
    dsimp only
    rw [hcp]
    dsimp only
    unfold calculateNodeDepth at hd
    rw [hd]
    rfl
  have h2 : depthWalk nodes (nodes.length + 1) (some c) = some dc := by
    unfold calculateNodeDepth at hdc
    rw [hself] at hdc
    exact depthWalk_mono (Nat.le_succ _) hdc
  rw [h1] at h2
  have : dc = d + 1 := by simpa using h2.symm
  exact ⟨this ▸ hdc, this ▸ hbc⟩

end DepthForest

theorem optionMapList_congr_some {α β : Type} {f g : α → Option β} :
    ∀ {l : List α} {r : List β}, (∀ a ∈ l, ∀ b, f a = some b → g a = some b) →
      optionMapList f l = some r → optionMapList g l = some r := by
  intro l
  induction l with
  | nil => intro r _ h; exact h
  | cons a t ih =>
    intro r hcong h
    simp only [optionMapList] at h ⊢
    rcases hfa : f a with _ | b
    · rw [hfa] at h
      exact absurd h (by simp)
    · rw [hfa] at h
      rw [hcong a (by simp) b hfa]
      rcases ht : optionMapList f t with _ | rt
      · rw [ht] at h
        exact absurd h (by simp)
      · rw [ht] at h
        rw [ih (fun x hx => hcong x (List.mem_cons_of_mem a hx)) ht]
        exact h

theorem optionMapList_isSome {α β : Type} {f : α → Option β} :
    ∀ {l : List α}, (∀ a ∈ l, (f a).isSome) → (optionMapList f l).isSome := by
  intro l
  induction l with
  | nil => intro _; simp [optionMapList]
  | cons a t ih =>
    intro hall
    simp only [optionMapList]
    rcases hfa : f a with _ | b
    · have := hall a (by simp)
      rw [hfa] at this
      simp at this
    · have ht := ih (fun x hx => hall x (List.mem_cons_of_mem a hx))
      rcases hm : optionMapList f t with _ | rt
      · rw [hm] at ht
        simp at ht
      · simp

theorem progressF_isSome {nodes : List TreeNode} (hvf : validForest nodes) :
    ∀ (fuel : Nat) (id : String) (d : Nat),
      calculateNodeDepth nodes id = some d → nodes.length + 1 ≤ fuel + d →
      (calculateNodeProgressF nodes fuel id).isSome := by
  intro fuel
  induction fuel with
  | zero =>
    intro id d hd hb
    have hdle : d ≤ nodes.length := depthWalk_le hd
    omega
  | succ fuel ih =>
    intro id d hd hb
    rw [calculateNodeProgressF]
    by_cases hch : getDirectChildren nodes id = []
    · rw [if_pos hch]
      simp
    · rw [if_neg hch]
      have hall : ∀ c ∈ getDirectChildren nodes id,
          (calculateNodeProgressF nodes fuel c.id).isSome := by
        intro c hcmem
        have hcm := mem_getDirectChildren_iff.mp hcmem
        have hdc := depth_child hvf hcm.1 hcm.2 hd
        exact ih c.id (d + 1) hdc.1 (by omega)
      have hsome := optionMapList_isSome hall
      rcases hm : optionMapList (fun c => calculateNodeProgressF nodes fuel c.id)
          (getDirectChildren nodes id) with _ | cps
      · rw [hm] at hsome
        simp at hsome
      · rw [hm]
        simp

theorem progressF_mono {nodes : List TreeNode} :
    ∀ {f1 f2 : Nat} {id : String} {p : NodeProgress}, f1 ≤ f2 →
      calculateNodeProgressF nodes f1 id = some p →
      calculateNodeProgressF nodes f2 id = some p := by
  intro f1
  induction f1 with
  | zero =>
    intro f2 id p hle h
    simp [calculateNodeProgressF] at h
  | succ f1 ih =>
    intro f2 id p hle h
    obtain ⟨g2, rfl⟩ : ∃ g2, f2 = g2 + 1 := ⟨f2 - 1, by omega⟩
    rw [calculateNodeProgressF] at h ⊢
    by_cases hch : getDirectChildren nodes id = []
    · rw [if_pos hch] at h ⊢
      exact h
    · rw [if_neg hch] at h ⊢
      rcases hm : optionMapList (fun c => calculateNodeProgressF nodes f1 c.id)
          (getDirectChildren nodes id) with _ | cps
      · rw [hm] at h
        exact absurd h (by simp)
      · rw [hm] at h
        have hlift : optionMapList (fun c => calculateNodeProgressF nodes g2 c.id)
            (getDirectChildren nodes id) = some cps :=
          optionMapList_congr_some (fun a _ b hb => ih (by omega) hb) hm
        rw [hlift]
        exact h

/-- C2: for every valid forest and every node id, `calculateNodeProgress`
returns a result; for a node with no direct children it is
`total = 1`, `completed = 1` iff the node's status is "completed" (0 for an
absent record), `percentage = completed·100`; for a node with children it is
the componentwise sum of the children's results — the node's own status is
not consulted in this branch — with
`percentage = round(completed/total·100)` when `total > 0` and `0`
otherwise. The children's results in the statement are those of the same
top-level function. -/
theorem c2_progress_semantics (nodes : List TreeNode) (nodeId : String)
    (hvf : validForest nodes) :
    ∃ p, calculateNodeProgress nodes nodeId = some p
      ∧ (getDirectChildren nodes nodeId = [] →
          p.total = 1
          ∧ p.completed = (if (findNode nodes nodeId).map (fun n => n.status)
              = some "completed" then 1 else 0)
          ∧ p.percentage = (p.completed : ℤ) * 100)
      ∧ (getDirectChildren nodes nodeId ≠ [] →
          ∃ cps, optionMapList (fun c => calculateNodeProgress nodes c.id)
              (getDirectChildren nodes nodeId) = some cps
            ∧ p.completed = (cps.map (fun q => q.completed)).sum
            ∧ p.total = (cps.map (fun q => q.total)).sum
            ∧ p.percentage = (if 0 < p.total
                then round ((p.completed : ℚ) / (p.total : ℚ) * 100) else 0)) := by
  obtain ⟨d, hd, hdle⟩ := depth_any hvf nodeId
  have hsome := progressF_isSome hvf (nodes.length + 1) nodeId d hd (by omega)
  obtain ⟨p, hp⟩ := Option.isSome_iff_exists.mp hsome
  refine ⟨p, hp, ?_, ?_⟩
  · intro hch
    rw [calculateNodeProgressF, if_pos hch] at hp
    have hpv := hp
    injection hpv with hpv
    rw [← hpv]
    refine ⟨rfl, rfl, by simp⟩
  · intro hch
    rw [calculateNodeProgressF, if_neg hch] at hp
    rcases hm : optionMapList (fun c => calculateNodeProgressF nodes nodes.length c.id)
        (getDirectChildren nodes nodeId) with _ | cps
    · rw [hm] at hp
      exact absurd hp (by simp)
    · rw [hm] at hp
      have hlift : optionMapList (fun c => calculateNodeProgress nodes c.id)
          (getDirectChildren nodes nodeId) = some cps :=
        optionMapList_congr_some
          (fun a _ b hb => progressF_mono (Nat.le_succ _) hb) hm
      refine ⟨cps, hlift, ?_, ?_, ?_⟩
      · injection hp with hpv
        rw [← hpv]
      · injection hp with hpv
        rw [← hpv]
      · injection hp with hpv
        rw [← hpv]
        simp only [Nat.cast_list_sum, List.map_map, Function.comp]
        rfl

/-- A small concrete valid forest: root `"r"` with a completed leaf `"a"`
and an open leaf `"b"`. -/
def wRoot : TreeNode := { baseNode with id := "r" }

/-- Completed leaf of `wRoot`. -/
def wLeafA : TreeNode :=
  { baseNode with id := "a", parentId := some "r", status := "completed", order := 0 }

/-- Open leaf of `wRoot`. -/
def wLeafB : TreeNode := { baseNode with id := "b", parentId := some "r", order := 1 }

/-- The three-node witness forest. -/
def wForest : List TreeNode := [wRoot, wLeafA, wLeafB]

/-- Witness for C2 at the concrete forest `wForest` and its root. -/
theorem c2_progress_semantics_witness :
    validForest wForest
    ∧ ∃ p, calculateNodeProgress wForest "r" = some p
      ∧ (getDirectChildren wForest "r" = [] →
          p.total = 1
          ∧ p.completed = (if (findNode wForest "r").map (fun n => n.status)
              = some "completed" then 1 else 0)
          ∧ p.percentage = (p.completed : ℤ) * 100)
      ∧ (getDirectChildren wForest "r" ≠ [] →
          ∃ cps, optionMapList (fun c => calculateNodeProgress wForest c.id)
              (getDirectChildren wForest "r") = some cps
            ∧ p.completed = (cps.map (fun q => q.completed)).sum
            ∧ p.total = (cps.map (fun q => q.total)).sum
            ∧ p.percentage = (if 0 < p.total
                then round ((p.completed : ℚ) / (p.total : ℚ) * 100) else 0)) :=
  ⟨by decide, c2_progress_semantics wForest "r" (by decide)⟩

section Layout

/-- `BASE_HORIZONTAL_GAP` from `src/utils/tree/layout.ts` line 6. -/
def BASE_HORIZONTAL_GAP : ℚ := 40

/-- `BASE_VERTICAL_GAP` from `src/utils/tree/layout.ts` line 7. -/
def BASE_VERTICAL_GAP : ℚ := 60

/-- Result of `getLayoutMetrics`. -/
structure LayoutMetrics where
  width : ℚ
  height : ℚ
  scale : ℚ
  horizontalGap : ℚ
  verticalGap : ℚ
  deriving DecidableEq, Repr

/-- `getLayoutMetrics` from `src/utils/tree/layout.ts` lines 28–44: visual
dimensions and gaps at a depth, every base value multiplied by the scale at
that depth. -/
def getLayoutMetrics (depth : Nat) (nodeSize : NodeSizeSettings) : LayoutMetrics :=
  { width := nodeSize.baseWidth * getScaleAtDepth depth nodeSize
    height := nodeSize.baseHeight * getScaleAtDepth depth nodeSize
    scale := getScaleAtDepth depth nodeSize
    horizontalGap := BASE_HORIZONTAL_GAP * getScaleAtDepth depth nodeSize
    verticalGap := BASE_VERTICAL_GAP * getScaleAtDepth depth nodeSize }

/-- The root objects `buildTree` collects (`src/utils/tree/traversal.ts`
lines 96–116): one push of the node-map's canonical object per record whose
own `parentId` is null. With duplicate ids the pushed object is the map's
last-wins record for that id, hence the `mapLookup`. -/
def buildRoots (nodes : List TreeNode) : List TreeNode :=
  nodes.filterMap (fun n => if n.parentId = none then mapLookup nodes n.id else none)

/-- The children the second pass of `buildTree` attaches to the canonical
object with id `q`: the canonical object of `n.id` for every record `n` with
`n.parentId === q`. -/
def childObjs (nodes : List TreeNode) (q : String) : List TreeNode :=
  (nodes.filter (fun n => n.parentId = some q)).filterMap (fun n => mapLookup nodes n.id)

/-- The recursive `sortChildren` traversal of `buildTree`
(`src/utils/tree/traversal.ts` lines 119–125): sort the children of the
current object by `order`, then recurse into each. On an object graph with
a cycle reachable from a root (possible with duplicate ids) the source
recursion never returns; the fuel makes that observable as `none`. -/
def sortWalk (nodes : List TreeNode) : Nat → TreeNode → Option Unit
  | 0, _ => none
  | fuel + 1, node =>
    (optionMapList (fun c => sortWalk nodes fuel c)
      (sortByOrder (childObjs nodes node.id))).map (fun _ => ())

/-- `buildTree` from `src/utils/tree/traversal.ts`, reduced to what
`calculateLayout` consumes: the sorted root objects, after the
`sortChildren` traversal has run over every root's subtree. -/
def buildTree (nodes : List TreeNode) (fuel : Nat) : Option (List TreeNode) :=
  (optionMapList (fun r => sortWalk nodes fuel r) (sortByOrder (buildRoots nodes))).map
    (fun _ => sortByOrder (buildRoots nodes))

/-- The `isHidden` closure of `calculateLayout`
(`src/utils/tree/layout.ts` lines 85–94): walk up the parent chain and
report true at the first `parentId` in the collapsed set; the membership
test runs before the parent record is resolved, so a dangling final
`parentId` is still tested. -/
def isHiddenWalk (nodes : List TreeNode) (collapsed : List String) :
    Nat → Option TreeNode → Option Bool
  | fuel, cur =>
    match cur with
    | none => some false
    | some c =>
      match c.parentId with
      | none => some false
      | some pid =>
        if pid ∈ collapsed then some true
        else
          match fuel with
          | 0 => none
          | fuel' + 1 => isHiddenWalk nodes collapsed fuel' (findNode nodes pid)

/-- `isHidden(nodeId)` at the canonical fuel. -/
def isHidden (nodes : List TreeNode) (collapsed : List String) (nodeId : String) :
    Option Bool :=
  isHiddenWalk nodes collapsed nodes.length (findNode nodes nodeId)

/-- `calculateSubtreeWidth` from `src/utils/tree/layout.ts` lines 110–142:
a collapsed or childless node occupies its own scaled width; otherwise the
children's subtree widths plus `(count − 1)` gaps at the children's depth,
floored below by the node's own width via `Math.max`. The source memoises
results in the `subtreeWidths` map; since the function is pure, the model
recomputes the same values instead of carrying the map. The node's depth is
recomputed by the `getDepth` parent walk, embedded as
`calculateNodeDepth`. -/
def calculateSubtreeWidthF (nodes : List TreeNode) (collapsed : List String)
    (nodeSize : NodeSizeSettings) : Nat → String → Option ℚ
  | 0, nodeId =>
    match calculateNodeDepth nodes nodeId with
    | none => none
    | some depth =>
      if nodeId ∈ collapsed then some (getLayoutMetrics depth nodeSize).width
      else if getDirectChildren nodes nodeId = [] then
        some (getLayoutMetrics depth nodeSize).width
      else none
  | fuel + 1, nodeId =>
    match calculateNodeDepth nodes nodeId with
    | none => none
    | some depth =>
      if nodeId ∈ collapsed then some (getLayoutMetrics depth nodeSize).width
      else if getDirectChildren nodes nodeId = [] then
        some (getLayoutMetrics depth nodeSize).width
      else
        (optionMapList (fun c => calculateSubtreeWidthF nodes collapsed nodeSize fuel c.id)
            (getDirectChildren nodes nodeId)).map (fun ws =>
          max (getLayoutMetrics depth nodeSize).width
            (ws.sum + (((getDirectChildren nodes nodeId).length : ℚ) - 1)
              * (getLayoutMetrics (depth + 1) nodeSize).horizontalGap))

/-- `calculateSubtreeWidth` at the canonical fuel. -/
def calculateSubtreeWidth (nodes : List TreeNode) (collapsed : List String)
    (nodeSize : NodeSizeSettings) (nodeId : String) : Option ℚ :=
  calculateSubtreeWidthF nodes collapsed nodeSize (nodes.length + 1) nodeId

/-- The `depthYPositions` loop of `calculateLayout`
(`src/utils/tree/layout.ts` lines 151–158): entries for depths 0..15 only,
each the running sum of the shallower levels' scaled heights and vertical
gaps. -/
def yTableAux (f : Nat → ℚ) : Nat → Nat → ℚ → List (Nat × ℚ)
  | 0, _, _ => []
  | rem + 1, d, cumY => (d, cumY) :: yTableAux f rem (d + 1) (cumY + f d)

/-- The table built by the loop, with the per-level increment
`metrics.height + metrics.verticalGap`. -/
def buildYTable (nodeSize : NodeSizeSettings) : Nat → Nat → ℚ → List (Nat × ℚ) :=
  yTableAux (fun d =>
    (getLayoutMetrics d nodeSize).height + (getLayoutMetrics d nodeSize).verticalGap)

/-- The finished 16-entry table. -/
def depthYPositions (nodeSize : NodeSizeSettings) : List (Nat × ℚ) :=
  buildYTable nodeSize 16 0 0

/-- `depthYPositions.get(depth) || 0` — depths beyond 15 fall back to 0. -/
def yPosOf (nodeSize : NodeSizeSettings) (d : Nat) : ℚ :=
  ((depthYPositions nodeSize).lookup d).getD 0

/-- The `data` payload `{...node, depth, hasChildren, isCollapsed, scale}`. -/
structure NodeData where
  node : TreeNode
  depth : Nat
  hasChildren : Bool
  isCollapsed : Bool
  scale : ℚ
  deriving DecidableEq, Repr

/-- A positioned flow node. -/
structure LayoutNode where
  id : String
  type : String
  position : ℚ × ℚ
  data : NodeData
  draggable : Bool
  deriving DecidableEq, Repr

/-- A flow edge (`id`, `source`, `target`, `type`); the constant style is
omitted. -/
structure Edge where
  id : String
  source : String
  target : String
  type : String
  deriving DecidableEq, Repr

/-- The `childStartX` accumulation of `positionNode`: the i-th child's
subtree starts after the widths of its earlier siblings plus one
child-depth gap each. -/
def childStartXs (start gap : ℚ) : List ℚ → List ℚ
  | [] => []
  | w :: ws => start :: childStartXs (start + w + gap) gap ws

/-- `positionNode` from `src/utils/tree/layout.ts` lines 161–206, emitting
the pre-order list of layout nodes of one subtree: resolve the record (a
missing id emits nothing), skip hidden nodes, place the node centred over
its subtree span at `y = depthYPositions.get(depth) || 0`, stop at a
collapsed node, otherwise recurse into the sorted children with the
accumulated start offsets. Subtree widths are the memoised first-pass
values, recomputed via `calculateSubtreeWidth` (pure, same values). -/
def positionNode (nodes : List TreeNode) (collapsed : List String)
    (nodeSize : NodeSizeSettings) : Nat → String → Nat → ℚ → Option (List LayoutNode)
  | 0, _, _, _ => none
  | fuel + 1, nodeId, depth, subtreeStartX =>
    match findNode nodes nodeId with
    | none => some []
    | some node =>
      match isHidden nodes collapsed nodeId with
      | none => none
      | some true => some []
      | some false =>
        match calculateSubtreeWidth nodes collapsed nodeSize nodeId with
        | none => none
        | some subtreeWidth =>
          let metrics := getLayoutMetrics depth nodeSize
          let self : LayoutNode :=
            { id := node.id
              type := "treeNode"
              position := (subtreeStartX + subtreeWidth / 2 - metrics.width / 2,
                           yPosOf nodeSize depth)
              data := { node := node, depth := depth
                        hasChildren := nodes.any (fun n => n.parentId = some nodeId)
                        isCollapsed := decide (nodeId ∈ collapsed)
                        scale := metrics.scale }
              draggable := false }
          if nodeId ∈ collapsed then some [self]
          else
            match optionMapList (fun c => calculateSubtreeWidth nodes collapsed nodeSize c.id)
                (getDirectChildren nodes nodeId) with
            | none => none
            | some ws =>
              match optionMapList
                  (fun pr => positionNode nodes collapsed nodeSize fuel pr.1.id (depth + 1) pr.2)
                  ((getDirectChildren nodes nodeId).zip
                    (childStartXs subtreeStartX
                      ((getLayoutMetrics (depth + 1) nodeSize).horizontalGap) ws)) with
              | none => none
              | some emits => some (self :: emits.flatten)

/-- The root loop of `calculateLayout` (lines 209–215): place each sorted
root subtree left to right, advancing by the root's subtree width plus the
depth-0 horizontal gap. -/
def positionRoots (nodes : List TreeNode) (collapsed : List String)
    (nodeSize : NodeSizeSettings) (fuel : Nat) : List TreeNode → ℚ → Option (List LayoutNode)
  | [], _ => some []
  | r :: rs, currentX =>
    match positionNode nodes collapsed nodeSize fuel r.id 0 currentX with
    | none => none
    | some em =>
      match calculateSubtreeWidth nodes collapsed nodeSize r.id with
      | none => none
      | some w =>
        match positionRoots nodes collapsed nodeSize fuel rs
            (currentX + w + (getLayoutMetrics 0 nodeSize).horizontalGap) with
        | none => none
        | some rest => some (em ++ rest)

/-- `calculateLayout` from `src/utils/tree/layout.ts` lines 67–230 with the
recursion fuel explicit: build the tree (running the sort traversal), run
the first width pass over the roots, position every visible node, and keep
exactly the edges whose endpoints both are visible. -/
def calculateLayoutF (fuel : Nat) (nodes : List TreeNode) (collapsed : List String)
    (nodeSize : NodeSizeSettings) : Option (List LayoutNode × List Edge) :=
  if nodes = [] then some ([], [])
  else
    match buildTree nodes fuel with
    | none => none
    | some tree =>
      match optionMapList (fun r => calculateSubtreeWidth nodes collapsed nodeSize r.id) tree with
      | none => none
      | some _ =>
        match positionRoots nodes collapsed nodeSize fuel tree 0 with
        | none => none
        | some layoutedNodes =>
          let visible := layoutedNodes.map (fun ln => ln.id)
          let edges := (nodes.filter (fun n =>
              n.parentId.isSome ∧ n.id ∈ visible
                ∧ (n.parentId.getD "") ∈ visible)).map (fun n =>
            { id := "e-" ++ n.parentId.getD "" ++ "-" ++ n.id
              source := n.parentId.getD ""
              target := n.id
              type := "tree" : Edge })
          some (layoutedNodes, edges)

/-- `calculateLayout` at the canonical fuel (one unit per tree level plus
one, enough for every valid forest and, as proved for C7, for every
distinct-id input). -/
def calculateLayout (nodes : List TreeNode) (collapsed : List String)
    (nodeSize : NodeSizeSettings) : Option (List LayoutNode × List Edge) :=
  calculateLayoutF (nodes.length + 1) nodes collapsed nodeSize

end Layout

theorem optionMapList_mem {α β : Type} {f : α → Option β} :
    ∀ {l : List α} {rs : List β}, optionMapList f l = some rs →
      ∀ r ∈ rs, ∃ a ∈ l, f a = some r := by
  intro l
  induction l with
  | nil =>
    intro rs h r hr
    simp only [optionMapList] at h
    injection h with h
    rw [← h] at hr
    simp at hr
  | cons a t ih =>
    intro rs h r hr
    simp only [optionMapList] at h
    rcases hfa : f a with _ | b <;> rw [hfa] at h
    · exact absurd h (by simp)
    · rcases ht : optionMapList f t with _ | rt <;> rw [ht] at h
      · exact absurd h (by simp)
      · simp at h
        rw [← h] at hr
        rcases List.mem_cons.mp hr with h1 | h2
        · exact ⟨a, by simp, h1 ▸ hfa⟩
        · obtain ⟨x, hx, hfx⟩ := ih ht r h2
          exact ⟨x, List.mem_cons_of_mem a hx, hfx⟩

theorem positionNode_y {nodes : List TreeNode} {collapsed : List String}
    {nodeSize : NodeSizeSettings} :
    ∀ {fuel : Nat} {nodeId : String} {depth : Nat} {sx : ℚ} {res : List LayoutNode},
      positionNode nodes collapsed nodeSize fuel nodeId depth sx = some res →
      ∀ ln ∈ res, ln.position.2 = yPosOf nodeSize ln.data.depth := by
  intro fuel
  induction fuel with
  | zero =>
    intro nodeId depth sx res h
    simp [positionNode] at h
  | succ fuel ih =>
    intro nodeId depth sx res h ln hln
    rw [positionNode] at h
    dsimp only at h
    rcases hf : findNode nodes nodeId with _ | node <;> rw [hf] at h <;>
      (try dsimp only at h)
    · injection h with h
      rw [← h] at hln
      simp at hln
    · rcases hh : isHidden nodes collapsed nodeId with _ | b <;> rw [hh] at h <;>
        (try dsimp only at h)
      · exact absurd h (by simp)
      · rcases b with _ | _ <;> (try dsimp only at h)
        · rcases hw : calculateSubtreeWidth nodes collapsed nodeSize nodeId
              with _ | w <;> rw [hw] at h <;> (try dsimp only at h)
          · exact absurd h (by simp)
          · by_cases hc : nodeId ∈ collapsed
            · rw [if_pos hc] at h
              injection h with h
              rw [← h] at hln
              simp at hln
              rw [hln]
            · rw [if_neg hc] at h
              rcases hws : optionMapList
                  (fun c => calculateSubtreeWidth nodes collapsed nodeSize c.id)
                  (getDirectChildren nodes nodeId) with _ | ws <;> rw [hws] at h <;>
                (try dsimp only at h)
              · exact absurd h (by simp)
              · rcases hem : optionMapList
                    (fun pr => positionNode nodes collapsed nodeSize fuel pr.1.id
                      (depth + 1) pr.2)
                    ((getDirectChildren nodes nodeId).zip
                      (childStartXs sx
                        ((getLayoutMetrics (depth + 1) nodeSize).horizontalGap) ws))
                    with _ | emits <;> rw [hem] at h <;> (try dsimp only at h)
                · exact absurd h (by simp)
                · injection h with h
                  rw [← h] at hln
                  rcases List.mem_cons.mp hln with h1 | h2
                  · rw [h1]
                  · obtain ⟨em, hemm, hmem⟩ := List.mem_flatten.mp h2
                    obtain ⟨pr, _, hpr⟩ := optionMapList_mem hem em hemm
                    exact ih hpr ln hmem
        · injection h with h
          rw [← h] at hln
          simp at hln

theorem positionRoots_y {nodes : List TreeNode} {collapsed : List String}
    {nodeSize : NodeSizeSettings} {fuel : Nat} :
    ∀ {roots : List TreeNode} {cx : ℚ} {res : List LayoutNode},
      positionRoots nodes collapsed nodeSize fuel roots cx = some res →
      ∀ ln ∈ res, ln.position.2 = yPosOf nodeSize ln.data.depth := by
  intro roots
  induction roots with
  | nil =>
    intro cx res h ln hln
    simp only [positionRoots] at h
    injection h with h
    rw [← h] at hln
    simp at hln
  | cons r rs ih =>
    intro cx res h ln hln
    rw [positionRoots] at h
    try dsimp only at h
    rcases hp : positionNode nodes collapsed nodeSize fuel r.id 0 cx
        with _ | em <;> rw [hp] at h <;> (try dsimp only at h)
    · exact absurd h (by simp)
    · rcases hw : calculateSubtreeWidth nodes collapsed nodeSize r.id
          with _ | w <;> rw [hw] at h <;> (try dsimp only at h)
      · exact absurd h (by simp)
      · rcases hr : positionRoots nodes collapsed nodeSize fuel rs
            (cx + w + (getLayoutMetrics 0 nodeSize).horizontalGap)
            with _ | rest <;> rw [hr] at h <;> (try dsimp only at h)
        · exact absurd h (by simp)
        · injection h with h
          rw [← h] at hln
          rcases List.mem_append.mp hln with h1 | h2
          · exact positionNode_y hp ln h1
          · exact ih hr ln h2

theorem calculateLayoutF_y {fuel : Nat} {nodes : List TreeNode}
    {collapsed : List String} {nodeSize : NodeSizeSettings}
    {r : List LayoutNode × List Edge}
    (h : calculateLayoutF fuel nodes collapsed nodeSize = some r) :
    ∀ ln ∈ r.1, ln.position.2 = yPosOf nodeSize ln.data.depth := by
  intro ln hln
  unfold calculateLayoutF at h
  by_cases hz : nodes = []
  · rw [if_pos hz] at h
    injection h with h
    rw [← h] at hln
    simp at hln
  · rw [if_neg hz] at h
    rcases ht : buildTree nodes fuel with _ | tree <;> rw [ht] at h <;>
      (try dsimp only at h)
    · exact absurd h (by simp)
    · rcases hwp : optionMapList
          (fun rt => calculateSubtreeWidth nodes collapsed nodeSize rt.id) tree
          with _ | wsp <;> rw [hwp] at h <;> (try dsimp only at h)
      · exact absurd h (by simp)
      · rcases hpr : positionRoots nodes collapsed nodeSize fuel tree 0
            with _ | lns <;> rw [hpr] at h <;> (try dsimp only at h)
        · exact absurd h (by simp)
        · injection h with h
          rw [← h] at hln
          exact positionRoots_y hpr ln hln

/-- The claim's cumulative sum: over all levels shallower than `d`, the
scaled height plus the scaled base vertical gap. -/
def levelYSum (nodeSize : NodeSizeSettings) (d : Nat) : ℚ :=
  ((List.range d).map (fun i =>
    nodeSize.baseHeight * getScaleAtDepth i nodeSize
      + BASE_VERTICAL_GAP * getScaleAtDepth i nodeSize)).sum

theorem range_sum_shift (f : Nat → ℚ) (j d0 : Nat) :
    ((List.range (j + 1)).map (fun i => f (d0 + i))).sum
      = f d0 + ((List.range j).map (fun i => f (d0 + 1 + i))).sum := by
  rw [List.range_succ_eq_map]
  simp only [List.map_cons, List.map_map, List.sum_cons, Nat.add_zero]
  have hmap : (List.range j).map ((fun i => f (d0 + i)) ∘ Nat.succ)
      = (List.range j).map (fun i => f (d0 + 1 + i)) := by
    apply List.map_congr_left
    intro i _
    simp only [Function.comp_apply]
    congr 1
    omega
  rw [hmap]

theorem yTableAux_lookup (f : Nat → ℚ) :
    ∀ (rem d0 : Nat) (cum : ℚ) (j : Nat),
      (yTableAux f rem d0 cum).lookup (d0 + j)
        = if j < rem then
            some (cum + ((List.range j).map (fun i => f (d0 + i))).sum)
          else none := by
  intro rem
  induction rem with
  | zero =>
    intro d0 cum j
    simp [yTableAux]
  | succ rem ih =>
    intro d0 cum j
    rw [yTableAux]
    cases j with
    | zero => simp [List.lookup]
    | succ j =>
      have hne : (d0 + (j + 1) == d0) = false := by
        simp
      rw [List.lookup, hne]
      try dsimp only
      have hix : d0 + (j + 1) = d0 + 1 + j := by omega
      rw [hix, ih (d0 + 1) (cum + f d0) j]
      by_cases hj : j < rem
      · rw [if_pos hj, if_pos (by omega : j + 1 < rem + 1)]
        rw [range_sum_shift f j d0, add_assoc]
      · rw [if_neg hj, if_neg (by omega)]

theorem yPosOf_eq (nodeSize : NodeSizeSettings) (d : Nat) :
    yPosOf nodeSize d = if d ≤ 15 then levelYSum nodeSize d else 0 := by
  unfold yPosOf depthYPositions buildYTable
  have h := yTableAux_lookup (fun k =>
    (getLayoutMetrics k nodeSize).height + (getLayoutMetrics k nodeSize).verticalGap)
    16 0 0 d
  simp only [Nat.zero_add, zero_add] at h
  rw [h]
  by_cases hd : d ≤ 15
  · rw [if_pos (show d < 16 by omega), if_pos hd]
    simp only [Option.getD_some]
    rfl
  · rw [if_neg (by omega), if_neg hd]
    rfl
/-- C4 (amended): for every input, every collapsed set and every size
configuration, each node placed by the layout gets
`y = the cumulative sum over shallower levels i of
(baseHeight·scale(i) + baseVerticalGap·scale(i))` — but only up to depth 15:
the source precomputes `depthYPositions` for `d ≤ 15` only, and
`depthYPositions.get(depth) || 0` silently places every deeper node at
`y = 0`. The claim's "this holds at every depth, not only up to some bounded
depth" is exactly what fails (see the counterexample). -/
theorem c4_y_cumulative_up_to_depth_15 (fuel : Nat) (nodes : List TreeNode)
    (collapsed : List String) (nodeSize : NodeSizeSettings) :
    ((calculateLayoutF fuel nodes collapsed nodeSize).elim [] (fun r => r.1)).map
        (fun ln => ln.position.2)
      = ((calculateLayoutF fuel nodes collapsed nodeSize).elim [] (fun r => r.1)).map
        (fun ln => if ln.data.depth ≤ 15 then levelYSum nodeSize ln.data.depth else 0) := by
  rcases hr : calculateLayoutF fuel nodes collapsed nodeSize with _ | r
  · rfl
  · dsimp only [Option.elim]
    apply List.map_congr_left
    intro ln hln
    rw [calculateLayoutF_y hr ln hln, yPosOf_eq]

/-- A flat configuration for the C4 counterexample: scale stays 1 at every
depth, so the claimed cumulative sum is simply `depth · (1 + 60)`. -/
def cfgFlat : NodeSizeSettings :=
  { baseWidth := 0, baseHeight := 1, depthScalePercent := 100, minScalePercent := 100 }

/-- A 17-node chain `n0 ← n1 ← … ← n16` (each node the sole child of the
previous one): a valid forest whose deepest node sits at depth 16. -/
def chain17 : List TreeNode :=
  [ { baseNode with id := "n0" },
    { baseNode with id := "n1", parentId := some "n0" },
    { baseNode with id := "n2", parentId := some "n1" },
    { baseNode with id := "n3", parentId := some "n2" },
    { baseNode with id := "n4", parentId := some "n3" },
    { baseNode with id := "n5", parentId := some "n4" },
    { baseNode with id := "n6", parentId := some "n5" },
    { baseNode with id := "n7", parentId := some "n6" },
    { baseNode with id := "n8", parentId := some "n7" },
    { baseNode with id := "n9", parentId := some "n8" },
    { baseNode with id := "n10", parentId := some "n9" },
    { baseNode with id := "n11", parentId := some "n10" },
    { baseNode with id := "n12", parentId := some "n11" },
    { baseNode with id := "n13", parentId := some "n12" },
    { baseNode with id := "n14", parentId := some "n13" },
    { baseNode with id := "n15", parentId := some "n14" },
    { baseNode with id := "n16", parentId := some "n15" } ]

theorem scale_cfgFlat (i : Nat) : getScaleAtDepth i cfgFlat = 1 := by
  cases i with
  | zero => simp [getScaleAtDepth]
  | succ n =>
    have h1 : cfgFlat.depthScalePercent / 100 = 1 := by
      norm_num [cfgFlat]
    have h2 : cfgFlat.minScalePercent / 100 = 1 := by
      norm_num [cfgFlat]
    rw [getScaleAtDepth, if_neg (Nat.succ_ne_zero n), scaleLoop_eq_pow, h1, h2]
    simp

theorem levelYSum_cfgFlat_16 : levelYSum cfgFlat 16 = 976 := by
  unfold levelYSum
  have hterm : ∀ i ∈ List.range 16,
      cfgFlat.baseHeight * getScaleAtDepth i cfgFlat
        + BASE_VERTICAL_GAP * getScaleAtDepth i cfgFlat = (61 : ℚ) := by
    intro i _
    rw [scale_cfgFlat i]
    norm_num [cfgFlat, BASE_VERTICAL_GAP]
  rw [List.map_congr_left hterm]
  have hrep : (List.range 16).map (fun _ => (61 : ℚ)) = List.replicate 16 (61 : ℚ) := rfl
  rw [hrep, List.sum_replicate]
  norm_num

/-- C4 counterexample: on the valid forest `chain17` with nothing collapsed
and the configuration `cfgFlat`, the layout places the node `"n16"` at depth
16 with `y = 0` — the `depthYPositions` table stops at depth 15 and the
source's `|| 0` fallback fires — while the claim's cumulative sum at depth
16 is 976. So the claim fails beyond depth 15. -/
theorem c4_counterexample :
    validForest chain17
    ∧ (calculateLayout chain17 [] cfgFlat).map
        (fun r => r.1.filterMap (fun ln =>
          if ln.id = "n16" then some (ln.data.depth, ln.position.2) else none))
      = some [(16, 0)]
    ∧ levelYSum cfgFlat 16 = 976
    ∧ (0 : ℚ) ≠ 976 :=
  ⟨by decide, by decide, levelYSum_cfgFlat_16, by norm_num⟩

theorem subtreeWidthF_mono {nodes : List TreeNode} {collapsed : List String}
    {nodeSize : NodeSizeSettings} :
    ∀ {f1 f2 : Nat} {id : String} {w : ℚ}, f1 ≤ f2 →
      calculateSubtreeWidthF nodes collapsed nodeSize f1 id = some w →
      calculateSubtreeWidthF nodes collapsed nodeSize f2 id = some w := by
  intro f1
  induction f1 with
  | zero =>
    intro f2 id w hle h
    rw [calculateSubtreeWidthF] at h
    rcases f2 with _ | g2
    · exact h
    · rw [calculateSubtreeWidthF]
      rcases hd : calculateNodeDepth nodes id with _ | depth <;> rw [hd] at h <;>
        (try dsimp only at h)
      · exact absurd h (by simp)
      · dsimp only
        by_cases hc : id ∈ collapsed
        · rw [if_pos hc] at h ⊢
          exact h
        · rw [if_neg hc] at h ⊢
          by_cases hch : getDirectChildren nodes id = []
          · rw [if_pos hch] at h ⊢
            exact h
          · rw [if_neg hch] at h
            exact absurd h (by simp)
  | succ f1 ih =>
    intro f2 id w hle h
    obtain ⟨g2, rfl⟩ : ∃ g2, f2 = g2 + 1 := ⟨f2 - 1, by omega⟩
    rw [calculateSubtreeWidthF] at h ⊢
    rcases hd : calculateNodeDepth nodes id with _ | depth <;> rw [hd] at h <;>
      (try dsimp only at h) <;> (try dsimp only)
    · exact absurd h (by simp)
    · by_cases hc : id ∈ collapsed
      · rw [if_pos hc] at h ⊢
        exact h
      · rw [if_neg hc] at h ⊢
        by_cases hch : getDirectChildren nodes id = []
        · rw [if_pos hch] at h ⊢
          exact h
        · rw [if_neg hch] at h ⊢
          rcases hm : optionMapList
              (fun c => calculateSubtreeWidthF nodes collapsed nodeSize f1 c.id)
              (getDirectChildren nodes id) with _ | ws <;> rw [hm] at h
          · exact absurd h (by simp)
          · have hlift : optionMapList
                (fun c => calculateSubtreeWidthF nodes collapsed nodeSize g2 c.id)
                (getDirectChildren nodes id) = some ws :=
              optionMapList_congr_some (fun a _ b hb => ih (by omega) hb) hm
            rw [hlift]
            exact h

theorem subtreeWidthF_isSome {nodes : List TreeNode} {collapsed : List String}
    {nodeSize : NodeSizeSettings} (hvf : validForest nodes) :
    ∀ (fuel : Nat) (id : String) (d : Nat),
      calculateNodeDepth nodes id = some d → nodes.length + 1 ≤ fuel + d →
      (calculateSubtreeWidthF nodes collapsed nodeSize fuel id).isSome := by
  intro fuel
  induction fuel with
  | zero =>
    intro id d hd hb
    have hdle : d ≤ nodes.length := depthWalk_le hd
    omega
  | succ fuel ih =>
    intro id d hd hb
    rw [calculateSubtreeWidthF, hd]
    dsimp only
    by_cases hc : id ∈ collapsed
    · rw [if_pos hc]
      simp
    · rw [if_neg hc]
      by_cases hch : getDirectChildren nodes id = []
      · rw [if_pos hch]
        simp
      · rw [if_neg hch]
        have hall : ∀ c ∈ getDirectChildren nodes id,
            (calculateSubtreeWidthF nodes collapsed nodeSize fuel c.id).isSome := by
          intro c hcmem
          have hcm := mem_getDirectChildren_iff.mp hcmem
          have hdc := depth_child hvf hcm.1 hcm.2 hd
          exact ih c.id (d + 1) hdc.1 (by omega)
        have hsome := optionMapList_isSome hall
        rcases hm : optionMapList
            (fun c => calculateSubtreeWidthF nodes collapsed nodeSize fuel c.id)
            (getDirectChildren nodes id) with _ | ws
        · rw [hm] at hsome
          simp at hsome
        · rw [hm]
          simp

/-- C6: for every valid forest, collapsed set and size configuration, the
first-pass subtree width of a node whose (parent-walk) depth is `d` is its
own visual width `baseWidth·scale(d)` when the node is collapsed or
childless, and otherwise
`max(baseWidth·scale(d), Σ children's subtree widths + (count−1)·gap(d+1))`
with `gap(d+1) = BASE_HORIZONTAL_GAP·scale(d+1)`; the children's widths in
the statement are those of the same top-level function. -/
theorem c6_subtree_width (nodes : List TreeNode) (collapsed : List String)
    (nodeSize : NodeSizeSettings) (nodeId : String) (d : Nat)
    (hvf : validForest nodes) (hd : calculateNodeDepth nodes nodeId = some d) :
    ∃ w, calculateSubtreeWidth nodes collapsed nodeSize nodeId = some w
      ∧ ((nodeId ∈ collapsed ∨ getDirectChildren nodes nodeId = []) →
          w = nodeSize.baseWidth * getScaleAtDepth d nodeSize)
      ∧ (nodeId ∉ collapsed → getDirectChildren nodes nodeId ≠ [] →
          ∃ ws, optionMapList (fun c => calculateSubtreeWidth nodes collapsed nodeSize c.id)
              (getDirectChildren nodes nodeId) = some ws
            ∧ w = max (nodeSize.baseWidth * getScaleAtDepth d nodeSize)
                (ws.sum + (((getDirectChildren nodes nodeId).length : ℚ) - 1)
                  * (BASE_HORIZONTAL_GAP * getScaleAtDepth (d + 1) nodeSize))) := by
  have hsome := @subtreeWidthF_isSome nodes collapsed nodeSize
    hvf (nodes.length + 1) nodeId d hd (by omega)
  obtain ⟨w, hw⟩ := Option.isSome_iff_exists.mp hsome
  refine ⟨w, hw, ?_, ?_⟩
  · intro hcase
    rw [calculateSubtreeWidthF, hd] at hw
    dsimp only at hw
    rcases hcase with hc | hch
    · rw [if_pos hc] at hw
      injection hw with hw
      rw [← hw]
      rfl
    · by_cases hc : nodeId ∈ collapsed
      · rw [if_pos hc] at hw
        injection hw with hw
        rw [← hw]
        rfl
      · rw [if_neg hc, if_pos hch] at hw
        injection hw with hw
        rw [← hw]
        rfl
  · intro hc hch
    rw [calculateSubtreeWidthF, hd] at hw
    dsimp only at hw
    rw [if_neg hc, if_neg hch] at hw
    rcases hm : optionMapList
        (fun c => calculateSubtreeWidthF nodes collapsed nodeSize nodes.length c.id)
        (getDirectChildren nodes nodeId) with _ | ws <;> rw [hm] at hw
    · exact absurd hw (by simp)
    · have hlift : optionMapList
          (fun c => calculateSubtreeWidth nodes collapsed nodeSize c.id)
          (getDirectChildren nodes nodeId) = some ws :=
        optionMapList_congr_some
          (fun a _ b hb => subtreeWidthF_mono (Nat.le_succ _) hb) hm
      refine ⟨ws, hlift, ?_⟩
      injection hw with hw
      rw [← hw]
      rfl

/-- Witness for C6 at the concrete forest `wForest` and its root (depth 0,
two children). -/
theorem c6_subtree_width_witness :
    (validForest wForest ∧ calculateNodeDepth wForest "r" = some 0)
    ∧ ∃ w, calculateSubtreeWidth wForest [] defaultNodeSize "r" = some w
      ∧ (("r" ∈ ([] : List String) ∨ getDirectChildren wForest "r" = []) →
          w = defaultNodeSize.baseWidth * getScaleAtDepth 0 defaultNodeSize)
      ∧ ("r" ∉ ([] : List String) → getDirectChildren wForest "r" ≠ [] →
          ∃ ws, optionMapList (fun c => calculateSubtreeWidth wForest [] defaultNodeSize c.id)
              (getDirectChildren wForest "r") = some ws
            ∧ w = max (defaultNodeSize.baseWidth * getScaleAtDepth 0 defaultNodeSize)
                (ws.sum + (((getDirectChildren wForest "r").length : ℚ) - 1)
                  * (BASE_HORIZONTAL_GAP * getScaleAtDepth (0 + 1) defaultNodeSize))) :=
  ⟨⟨by decide, by decide⟩,
    c6_subtree_width wForest [] defaultNodeSize "r" 0 (by decide) (by decide)⟩

/-- The sequence of parent ids the hidden-walk inspects, in walk order
(includes a dangling final `parentId`, which the walk also tests). -/
def parentIdChainF (nodes : List TreeNode) : Nat → Option TreeNode → Option (List String)
  | fuel, cur =>
    match cur with
    | none => some []
    | some c =>
      match c.parentId with
      | none => some []
      | some pid =>
        match fuel with
        | 0 => none
        | fuel' + 1 =>
          (parentIdChainF nodes fuel' (findNode nodes pid)).map (fun l => pid :: l)

/-- The ancestor-id chain of a node, at the canonical fuel. -/
def ancestorIdsOf (nodes : List TreeNode) (id : String) : Option (List String) :=
  parentIdChainF nodes nodes.length (findNode nodes id)

theorem hiddenWalk_eq_chain {nodes : List TreeNode} {collapsed : List String} :
    ∀ {fuel : Nat} {cur : Option TreeNode} {l : List String},
      parentIdChainF nodes fuel cur = some l →
      isHiddenWalk nodes collapsed fuel cur
        = some (l.any (fun a => decide (a ∈ collapsed))) := by
  intro fuel
  induction fuel with
  | zero =>
    intro cur l h
    rcases cur with _ | c
    · rw [parentIdChainF] at h
      injection h with h
      rw [isHiddenWalk, ← h]
      rfl
    · rw [parentIdChainF] at h
      dsimp only at h
      rcases hpid : c.parentId with _ | pid <;> rw [hpid] at h <;> (try dsimp only at h)
      · injection h with h
        rw [isHiddenWalk]
        dsimp only
        rw [hpid, ← h]
        rfl
      · exact absurd h (by simp)
  | succ fuel ih =>
    intro cur l h
    rcases cur with _ | c
    · rw [parentIdChainF] at h
      injection h with h
      rw [isHiddenWalk, ← h]
      rfl
    · rw [parentIdChainF] at h
      dsimp only at h
      rcases hpid : c.parentId with _ | pid <;> rw [hpid] at h <;> (try dsimp only at h)
      · injection h with h
        rw [isHiddenWalk]
        dsimp only
        rw [hpid, ← h]
        rfl
      · rcases hch : parentIdChainF nodes fuel (findNode nodes pid)
            with _ | l' <;> rw [hch] at h
        · exact absurd h (by simp)
        · dsimp only [Option.map] at h
          injection h with h
          rw [isHiddenWalk]
          dsimp only
          rw [hpid]
          try dsimp only
          by_cases hcp : pid ∈ collapsed
          · rw [if_pos hcp, ← h]
            simp [hcp]
          · rw [if_neg hcp]
            try dsimp only
            rw [ih hch, ← h]
            simp [hcp]

theorem chain_isSome_of_depth {nodes : List TreeNode} :
    ∀ {fuel : Nat} {cur : Option TreeNode},
      (depthWalk nodes fuel cur).isSome → (parentIdChainF nodes fuel cur).isSome := by
  intro fuel
  induction fuel with
  | zero =>
    intro cur h
    rcases cur with _ | c
    · simp [parentIdChainF]
    · rw [depthWalk] at h
      rw [parentIdChainF]
      dsimp only at h ⊢
      rcases hpid : c.parentId with _ | pid
      · simp
      · rw [hpid] at h
        simp at h
  | succ fuel ih =>
    intro cur h
    rcases cur with _ | c
    · simp [parentIdChainF]
    · rw [depthWalk] at h
      rw [parentIdChainF]
      dsimp only at h ⊢
      rcases hpid : c.parentId with _ | pid
      · simp
      · rw [hpid] at h
        dsimp only at h ⊢
        rcases hw : depthWalk nodes fuel (findNode nodes pid) with _ | d
        · rw [hw] at h
          simp at h
        · have hchain := ih (show (depthWalk nodes fuel (findNode nodes pid)).isSome by
            rw [hw]; rfl)
          rcases hch : parentIdChainF nodes fuel (findNode nodes pid) with _ | l
          · rw [hch] at hchain
            simp at hchain
          · simp

theorem positionNode_visible {nodes : List TreeNode} {collapsed : List String}
    {nodeSize : NodeSizeSettings} :
    ∀ {fuel : Nat} {nodeId : String} {depth : Nat} {sx : ℚ} {res : List LayoutNode},
      positionNode nodes collapsed nodeSize fuel nodeId depth sx = some res →
      ∀ ln ∈ res, isHidden nodes collapsed ln.id = some false := by
  intro fuel
  induction fuel with
  | zero =>
    intro nodeId depth sx res h
    simp [positionNode] at h
  | succ fuel ih =>
    intro nodeId depth sx res h ln hln
    rw [positionNode] at h
    dsimp only at h
    rcases hf : findNode nodes nodeId with _ | node <;> rw [hf] at h <;>
      (try dsimp only at h)
    · injection h with h
      rw [← h] at hln
      simp at hln
    · rcases hh : isHidden nodes collapsed nodeId with _ | b <;> rw [hh] at h <;>
        (try dsimp only at h)
      · exact absurd h (by simp)
      · rcases b with _ | _ <;> (try dsimp only at h)
        · rcases hw : calculateSubtreeWidth nodes collapsed nodeSize nodeId
              with _ | w <;> rw [hw] at h <;> (try dsimp only at h)
          · exact absurd h (by simp)
          · have hid : node.id = nodeId := (mem_of_findNode hf).2
            by_cases hc : nodeId ∈ collapsed
            · rw [if_pos hc] at h
              injection h with h
              rw [← h] at hln
              simp at hln
              rw [hln]
              dsimp only
              rw [hid]
              exact hh
            · rw [if_neg hc] at h
              rcases hws : optionMapList
                  (fun c => calculateSubtreeWidth nodes collapsed nodeSize c.id)
                  (getDirectChildren nodes nodeId) with _ | ws <;> rw [hws] at h <;>
                (try dsimp only at h)
              · exact absurd h (by simp)
              · rcases hem : optionMapList
                    (fun pr => positionNode nodes collapsed nodeSize fuel pr.1.id
                      (depth + 1) pr.2)
                    ((getDirectChildren nodes nodeId).zip
                      (childStartXs sx
                        ((getLayoutMetrics (depth + 1) nodeSize).horizontalGap) ws))
                    with _ | emits <;> rw [hem] at h <;> (try dsimp only at h)
                · exact absurd h (by simp)
                · injection h with h
                  rw [← h] at hln
                  rcases List.mem_cons.mp hln with h1 | h2
                  · rw [h1]
                    dsimp only
                    rw [hid]
                    exact hh
                  · obtain ⟨em, hemm, hmem⟩ := List.mem_flatten.mp h2
                    obtain ⟨pr, _, hpr⟩ := optionMapList_mem hem em hemm
                    exact ih hpr ln hmem
        · injection h with h
          rw [← h] at hln
          simp at hln

theorem positionRoots_visible {nodes : List TreeNode} {collapsed : List String}
    {nodeSize : NodeSizeSettings} {fuel : Nat} :
    ∀ {roots : List TreeNode} {cx : ℚ} {res : List LayoutNode},
      positionRoots nodes collapsed nodeSize fuel roots cx = some res →
      ∀ ln ∈ res, isHidden nodes collapsed ln.id = some false := by
  intro roots
  induction roots with
  | nil =>
    intro cx res h ln hln
    simp only [positionRoots] at h
    injection h with h
    rw [← h] at hln
    simp at hln
  | cons r rs ih =>
    intro cx res h ln hln
    rw [positionRoots] at h
    try dsimp only at h
    rcases hp : positionNode nodes collapsed nodeSize fuel r.id 0 cx
        with _ | em <;> rw [hp] at h <;> (try dsimp only at h)
    · exact absurd h (by simp)
    · rcases hw : calculateSubtreeWidth nodes collapsed nodeSize r.id
          with _ | w <;> rw [hw] at h <;> (try dsimp only at h)
      · exact absurd h (by simp)
      · rcases hr : positionRoots nodes collapsed nodeSize fuel rs
            (cx + w + (getLayoutMetrics 0 nodeSize).horizontalGap)
            with _ | rest <;> rw [hr] at h <;> (try dsimp only at h)
        · exact absurd h (by simp)
        · injection h with h
          rw [← h] at hln
          rcases List.mem_append.mp hln with h1 | h2
          · exact positionNode_visible hp ln h1
          · exact ih hr ln h2

theorem calculateLayoutF_visible {fuel : Nat} {nodes : List TreeNode}
    {collapsed : List String} {nodeSize : NodeSizeSettings}
    {r : List LayoutNode × List Edge}
    (h : calculateLayoutF fuel nodes collapsed nodeSize = some r) :
    (∀ ln ∈ r.1, isHidden nodes collapsed ln.id = some false)
    ∧ (∀ e ∈ r.2, (∃ ln ∈ r.1, ln.id = e.source) ∧ (∃ ln ∈ r.1, ln.id = e.target)) := by
  unfold calculateLayoutF at h
  by_cases hz : nodes = []
  · rw [if_pos hz] at h
    injection h with h
    rw [← h]
    constructor
    · intro ln hln
      simp at hln
    · intro e he
      simp at he
  · rw [if_neg hz] at h
    rcases ht : buildTree nodes fuel with _ | tree <;> rw [ht] at h <;>
      (try dsimp only at h)
    · exact absurd h (by simp)
    · rcases hwp : optionMapList
          (fun rt => calculateSubtreeWidth nodes collapsed nodeSize rt.id) tree
          with _ | wsp <;> rw [hwp] at h <;> (try dsimp only at h)
      · exact absurd h (by simp)
      · rcases hpr : positionRoots nodes collapsed nodeSize fuel tree 0
            with _ | lns <;> rw [hpr] at h <;> (try dsimp only at h)
        · exact absurd h (by simp)
        · injection h with h
          rw [← h]
          constructor
          · intro ln hln
            exact positionRoots_visible hpr ln hln
          · intro e he
            simp only [List.mem_map, List.mem_filter] at he
            obtain ⟨n, ⟨hn, hcond⟩, hne⟩ := he
            simp only [decide_eq_true_eq] at hcond
            obtain ⟨-, hid, hpid⟩ := hcond
            constructor
            · obtain ⟨ln, hln, hlid⟩ := hpid
              exact ⟨ln, hln, by rw [← hne]; exact hlid⟩
            · obtain ⟨ln, hln, hlid⟩ := hid
              exact ⟨ln, hln, by rw [← hne]; exact hlid⟩

/-- C9: for every valid forest, collapsed set and size configuration, if
`cId` is collapsed and lies on the ancestor chain of `dId` (i.e. `dId` is a
descendant of `cId`), then the layout result contains no node for `dId` and
no edge touching `dId`. The embedding is a pure function of the input list —
it only ever builds new records — so the input node list itself is
untouched. -/
theorem c9_collapsed_descendants_excluded (nodes : List TreeNode)
    (collapsed : List String) (nodeSize : NodeSizeSettings) (cId dId : String)
    (anc : List String) (hvf : validForest nodes) (hcol : cId ∈ collapsed)
    (hanc : ancestorIdsOf nodes dId = some anc) (hmem : cId ∈ anc) :
    ((calculateLayout nodes collapsed nodeSize).elim [] (fun r => r.1)).all
        (fun ln => ln.id ≠ dId) = true
    ∧ ((calculateLayout nodes collapsed nodeSize).elim [] (fun r => r.2)).all
        (fun e => e.source ≠ dId ∧ e.target ≠ dId) = true := by
  have hhid : isHidden nodes collapsed dId = some true := by
    unfold isHidden
    unfold ancestorIdsOf at hanc
    rw [hiddenWalk_eq_chain hanc]
    have hany : anc.any (fun a => decide (a ∈ collapsed)) = true :=
      List.any_eq_true.mpr ⟨cId, hmem, by simp [hcol]⟩
    rw [hany]
  rcases hr : calculateLayout nodes collapsed nodeSize with _ | r
  · exact ⟨rfl, rfl⟩
  · have hvis := calculateLayoutF_visible hr
    dsimp only [Option.elim]
    constructor
    · rw [List.all_eq_true]
      intro ln hln
      simp only [decide_eq_true_eq]
      intro heq
      have hv := hvis.1 ln hln
      rw [heq, hhid] at hv
      simp at hv
    · rw [List.all_eq_true]
      intro e he
      simp only [decide_eq_true_eq]
      obtain ⟨⟨ln1, hln1, hid1⟩, ⟨ln2, hln2, hid2⟩⟩ := hvis.2 e he
      constructor
      · intro heq
        have hv := hvis.1 ln1 hln1
        rw [hid1, heq, hhid] at hv
        simp at hv
      · intro heq
        have hv := hvis.1 ln2 hln2
        rw [hid2, heq, hhid] at hv
        simp at hv

/-- Witness for C9: collapsing the root `"r"` of `wForest` removes its
child `"a"` from the layout's nodes and edges. -/
theorem c9_collapsed_descendants_excluded_witness :
    (validForest wForest ∧ "r" ∈ ["r"] ∧ ancestorIdsOf wForest "a" = some ["r"]
      ∧ "r" ∈ ["r"])
    ∧ ((calculateLayout wForest ["r"] defaultNodeSize).elim [] (fun r => r.1)).all
        (fun ln => ln.id ≠ "a") = true
    ∧ ((calculateLayout wForest ["r"] defaultNodeSize).elim [] (fun r => r.2)).all
        (fun e => e.source ≠ "a" ∧ e.target ≠ "a") = true :=
  ⟨⟨by decide, by decide, by decide, by decide⟩,
    c9_collapsed_descendants_excluded wForest ["r"] defaultNodeSize "r" "a" ["r"]
      (by decide) (by decide) (by decide) (by decide)⟩

section Termination

/-- An ancestor chain inside the node list: the current record first, its
parent next, …, ending at a record whose `parentId` is null. Every node the
layout recursions ever visit is the head of such a chain (roots trivially,
children by extending their parent's chain head-ward). -/
def AncestorChain (nodes : List TreeNode) : List TreeNode → Prop
  | [] => False
  | [r] => r ∈ nodes ∧ r.parentId = none
  | c :: p :: rest => c ∈ nodes ∧ c.parentId = some p.id ∧ AncestorChain nodes (p :: rest)

theorem chain_mem {nodes : List TreeNode} :
    ∀ {l : List TreeNode}, AncestorChain nodes l → ∀ x ∈ l, x ∈ nodes := by
  intro l
  induction l with
  | nil =>
    intro h
    rw [AncestorChain] at h
    exact h.elim
  | cons c rest ih =>
    intro h x hx
    rcases rest with _ | ⟨p, rest'⟩
    · rcases h with ⟨hc, -⟩
      simp at hx
      rw [hx]
      exact hc
    · rcases h with ⟨hc, -, htail⟩
      rcases List.mem_cons.mp hx with h1 | h2
      · rw [h1]
        exact hc
      · exact ih htail x h2

theorem chain_suffix {nodes : List TreeNode} :
    ∀ {l : List TreeNode}, AncestorChain nodes l → ∀ x ∈ l,
      ∃ s, AncestorChain nodes (x :: s) ∧ s.length + 1 ≤ l.length := by
  intro l
  induction l with
  | nil =>
    intro h
    rw [AncestorChain] at h
    exact h.elim
  | cons c rest ih =>
    intro h x hx
    rcases List.mem_cons.mp hx with h1 | h2
    · exact ⟨rest, h1 ▸ h, le_refl _⟩
    · rcases rest with _ | ⟨p, rest'⟩
      · simp at h2
      · rcases h with ⟨-, -, htail⟩
        obtain ⟨s, hs, hlen⟩ := ih htail x h2
        refine ⟨s, hs, ?_⟩
        simp only [List.length_cons] at hlen ⊢
        omega

theorem chain_walk {nodes : List TreeNode} (hnd : (nodeIds nodes).Nodup) :
    ∀ {c : TreeNode} {s : List TreeNode}, AncestorChain nodes (c :: s) →
      ∀ fuel : Nat, s.length ≤ fuel →
      depthWalk nodes fuel (some c) = some s.length := by
  intro c s
  induction s generalizing c with
  | nil =>
    intro h fuel _
    rcases h with ⟨-, hroot⟩
    rw [depthWalk]
    (try dsimp only)
    rw [hroot]
    rfl
  | cons p rest' ih =>
    intro h fuel hfuel
    rcases h with ⟨-, hpar, htail⟩
    obtain ⟨g, rfl⟩ : ∃ g, fuel = g + 1 :=
      ⟨fuel - 1, by simp only [List.length_cons] at hfuel; omega⟩
    rw [depthWalk]
    (try dsimp only)
    rw [hpar]
    (try dsimp only)
    have hpfind : findNode nodes p.id = some p :=
      findNode_self hnd (chain_mem htail p (by simp))
    rw [hpfind, ih htail g (by simp only [List.length_cons] at hfuel; omega)]
    rfl

theorem depthWalk_fun {nodes : List TreeNode} {f1 f2 : Nat} {cur : Option TreeNode}
    {a b : Nat} (h1 : depthWalk nodes f1 cur = some a)
    (h2 : depthWalk nodes f2 cur = some b) : a = b := by
  have ha := depthWalk_mono (Nat.le_add_right f1 f2) h1
  have hb := depthWalk_mono (Nat.le_add_left f2 f1) h2
  rw [ha] at hb
  injection hb

theorem chain_nodup {nodes : List TreeNode} (hnd : (nodeIds nodes).Nodup) :
    ∀ {l : List TreeNode}, AncestorChain nodes l → (l.map (fun x => x.id)).Nodup := by
  intro l
  induction l with
  | nil =>
    intro h
    rw [AncestorChain] at h
    exact h.elim
  | cons c rest ih =>
    intro h
    rcases hrest : rest with _ | ⟨p, rest'⟩
    · simp
    · subst hrest
      have hcm : c ∈ nodes := h.1
      have htail : AncestorChain nodes (p :: rest') := h.2.2
      have htnd := ih htail
      simp only [List.map_cons, List.nodup_cons] at htnd ⊢
      refine ⟨?_, htnd⟩
      intro hmem
      rcases List.mem_cons.mp hmem with hcp | hmem2
      · -- c.id = p.id: then c = p, and the walks from the two chain positions
        -- would have to agree on two different lengths
        have hpm : p ∈ nodes := chain_mem htail p (by simp)
        have hpc : p = c := nodup_id_unique hnd hpm hcm hcp.symm
        have hw1 : depthWalk nodes rest'.length (some p) = some rest'.length :=
          chain_walk hnd htail rest'.length (le_refl _)
        have hw2 : depthWalk nodes (rest'.length + 1) (some c)
            = some (p :: rest').length :=
          chain_walk hnd h (rest'.length + 1) (by simp)
        rw [hpc] at hw1
        have := depthWalk_fun hw1 hw2
        simp only [List.length_cons] at this
        omega
      · simp only [List.mem_map] at hmem2
        obtain ⟨x, hx, hxid⟩ := hmem2
        have hxm : x ∈ nodes := chain_mem htail x (List.mem_cons_of_mem p hx)
        have hxc : x = c := nodup_id_unique hnd hxm hcm hxid
        rw [hxc] at hx
        obtain ⟨s2, hs2, hlen2⟩ := chain_suffix htail c (List.mem_cons_of_mem p hx)
        have hw1 : depthWalk nodes s2.length (some c) = some s2.length :=
          chain_walk hnd hs2 s2.length (le_refl _)
        have hw2 : depthWalk nodes (rest'.length + 1) (some c)
            = some (p :: rest').length :=
          chain_walk hnd h (rest'.length + 1) (by simp)
        have heq := depthWalk_fun hw1 hw2
        simp only [List.length_cons] at hlen2 heq
        omega

theorem chain_length_le {nodes : List TreeNode} (hnd : (nodeIds nodes).Nodup)
    {l : List TreeNode} (h : AncestorChain nodes l) : l.length ≤ nodes.length := by
  have h1 : (l.map (fun x => x.id)).Nodup := chain_nodup hnd h
  have h2 : (l.map (fun x => x.id)) ⊆ nodeIds nodes := by
    intro a ha
    simp only [List.mem_map] at ha
    obtain ⟨x, hx, hxa⟩ := ha
    exact hxa ▸ List.mem_map_of_mem (fun n => n.id) (chain_mem h x hx)
  have := List.Subperm.length_le (h1.subperm h2)
  simpa [nodeIds] using this

theorem mem_sortByOrder {l : List TreeNode} {x : TreeNode} :
    x ∈ sortByOrder l ↔ x ∈ l := by
  unfold sortByOrder
  exact (List.perm_insertionSort _ _).mem_iff

theorem mem_childObjs {nodes : List TreeNode} (hnd : (nodeIds nodes).Nodup)
    {q : String} {k : TreeNode} (h : k ∈ childObjs nodes q) :
    k ∈ nodes ∧ k.parentId = some q := by
  unfold childObjs at h
  simp only [List.mem_filterMap, List.mem_filter, decide_eq_true_eq] at h
  obtain ⟨n, ⟨hn, hnp⟩, hml⟩ := h
  have hm := mem_of_mapLookup hml
  have heq : k = n := nodup_id_unique hnd hm.1 hn hm.2
  exact ⟨hm.1, by rw [heq]; exact hnp⟩

theorem mem_buildRoots {nodes : List TreeNode} (hnd : (nodeIds nodes).Nodup)
    {r : TreeNode} (h : r ∈ buildRoots nodes) : r ∈ nodes ∧ r.parentId = none := by
  unfold buildRoots at h
  simp only [List.mem_filterMap] at h
  obtain ⟨n, hn, hf⟩ := h
  by_cases hp : n.parentId = none
  · rw [if_pos hp] at hf
    have hm := mem_of_mapLookup hf
    have heq : r = n := nodup_id_unique hnd hm.1 hn hm.2
    exact ⟨hm.1, by rw [heq]; exact hp⟩
  · rw [if_neg hp] at hf
    exact absurd hf (by simp)

theorem isHiddenWalk_isSome {nodes : List TreeNode} {collapsed : List String}
    (hnd : (nodeIds nodes).Nodup) :
    ∀ {tail : List TreeNode} {c : TreeNode}, AncestorChain nodes (c :: tail) →
      ∀ fuel : Nat, tail.length ≤ fuel →
      (isHiddenWalk nodes collapsed fuel (some c)).isSome = true := by
  intro tail
  induction tail with
  | nil =>
    intro c h fuel _
    rcases h with ⟨-, hroot⟩
    rw [isHiddenWalk]
    (try dsimp only)
    rw [hroot]
    rfl
  | cons p rest ih =>
    intro c h fuel hfuel
    rcases h with ⟨-, hpar, htail⟩
    rw [isHiddenWalk]
    (try dsimp only)
    rw [hpar]
    (try dsimp only)
    by_cases hc : p.id ∈ collapsed
    · rw [if_pos hc]
      rfl
    · rw [if_neg hc]
      obtain ⟨g, rfl⟩ : ∃ g, fuel = g + 1 :=
        ⟨fuel - 1, by simp only [List.length_cons] at hfuel; omega⟩
      (try dsimp only)
      rw [findNode_self hnd (chain_mem htail p (by simp))]
      exact ih htail g (by simp only [List.length_cons] at hfuel; omega)

theorem isHidden_isSome_of_chain {nodes : List TreeNode} {collapsed : List String}
    (hnd : (nodeIds nodes).Nodup) {c : TreeNode} {tail : List TreeNode}
    (hch : AncestorChain nodes (c :: tail)) :
    (isHidden nodes collapsed c.id).isSome = true := by
  have hlen := chain_length_le hnd hch
  simp only [List.length_cons] at hlen
  unfold isHidden
  rw [findNode_self hnd (chain_mem hch c (by simp))]
  exact isHiddenWalk_isSome hnd hch nodes.length (by omega)

theorem depth_of_chain {nodes : List TreeNode} (hnd : (nodeIds nodes).Nodup)
    {c : TreeNode} {tail : List TreeNode} (hch : AncestorChain nodes (c :: tail)) :
    calculateNodeDepth nodes c.id = some tail.length := by
  have hlen := chain_length_le hnd hch
  simp only [List.length_cons] at hlen
  unfold calculateNodeDepth
  rw [findNode_self hnd (chain_mem hch c (by simp))]
  exact chain_walk hnd hch nodes.length (by omega)

theorem subtreeWidthF_some_of_chain {nodes : List TreeNode} {collapsed : List String}
    {nodeSize : NodeSizeSettings} (hnd : (nodeIds nodes).Nodup) :
    ∀ fuel : Nat, ∀ {c : TreeNode} {tail : List TreeNode},
      AncestorChain nodes (c :: tail) → nodes.length ≤ fuel + tail.length →
      (calculateSubtreeWidthF nodes collapsed nodeSize fuel c.id).isSome = true := by
  intro fuel
  induction fuel with
  | zero =>
    intro c tail hch hle
    have hlen := chain_length_le hnd hch
    simp only [List.length_cons] at hlen
    omega
  | succ g ih =>
    intro c tail hch hle
    rw [calculateSubtreeWidthF]
    rw [depth_of_chain hnd hch]
    (try dsimp only)
    by_cases hcc : c.id ∈ collapsed
    · rw [if_pos hcc]
      rfl
    · rw [if_neg hcc]
      by_cases hleaf : getDirectChildren nodes c.id = []
      · rw [if_pos hleaf]
        rfl
      · rw [if_neg hleaf]
        have hws : (optionMapList
            (fun k => calculateSubtreeWidthF nodes collapsed nodeSize g k.id)
            (getDirectChildren nodes c.id)).isSome = true := by
          apply optionMapList_isSome
          intro k hk
          obtain ⟨hkm, hkp⟩ := mem_getDirectChildren_iff.mp hk
          exact ih (show AncestorChain nodes (k :: c :: tail) from ⟨hkm, hkp, hch⟩)
            (by simp only [List.length_cons]; omega)
        obtain ⟨ws, hws2⟩ := Option.isSome_iff_exists.mp hws
        rw [hws2]
        rfl

theorem sortWalk_some_of_chain {nodes : List TreeNode}
    (hnd : (nodeIds nodes).Nodup) :
    ∀ fuel : Nat, ∀ {c : TreeNode} {tail : List TreeNode},
      AncestorChain nodes (c :: tail) → nodes.length ≤ fuel + tail.length →
      (sortWalk nodes fuel c).isSome = true := by
  intro fuel
  induction fuel with
  | zero =>
    intro c tail hch hle
    have hlen := chain_length_le hnd hch
    simp only [List.length_cons] at hlen
    omega
  | succ g ih =>
    intro c tail hch hle
    rw [sortWalk]
    have hrec : (optionMapList (fun k => sortWalk nodes g k)
        (sortByOrder (childObjs nodes c.id))).isSome = true := by
      apply optionMapList_isSome
      intro k hk
      obtain ⟨hkm, hkp⟩ := mem_childObjs hnd (mem_sortByOrder.mp hk)
      exact ih (show AncestorChain nodes (k :: c :: tail) from ⟨hkm, hkp, hch⟩)
        (by simp only [List.length_cons]; omega)
    obtain ⟨us, hus⟩ := Option.isSome_iff_exists.mp hrec
    rw [hus]
    rfl

theorem positionNode_some_of_chain {nodes : List TreeNode} {collapsed : List String}
    {nodeSize : NodeSizeSettings} (hnd : (nodeIds nodes).Nodup) :
    ∀ fuel : Nat, ∀ {c : TreeNode} {tail : List TreeNode},
      AncestorChain nodes (c :: tail) → nodes.length ≤ fuel + tail.length →
      ∀ (depth : Nat) (sx : ℚ),
      (positionNode nodes collapsed nodeSize fuel c.id depth sx).isSome = true := by
  intro fuel
  induction fuel with
  | zero =>
    intro c tail hch hle
    have hlen := chain_length_le hnd hch
    simp only [List.length_cons] at hlen
    omega
  | succ g ih =>
    intro c tail hch hle depth sx
    have hlen := chain_length_le hnd hch
    simp only [List.length_cons] at hlen
    rw [positionNode]
    (try dsimp only)
    rw [findNode_self hnd (chain_mem hch c (by simp))]
    (try dsimp only)
    obtain ⟨b, hb⟩ := Option.isSome_iff_exists.mp (isHidden_isSome_of_chain hnd hch)
    rw [hb]
    rcases b with _ | _
    · (try dsimp only)
      have hsw : (calculateSubtreeWidth nodes collapsed nodeSize c.id).isSome = true := by
        unfold calculateSubtreeWidth
        exact subtreeWidthF_some_of_chain hnd (nodes.length + 1) hch (by omega)
      obtain ⟨w, hw⟩ := Option.isSome_iff_exists.mp hsw
      rw [hw]
      (try dsimp only)
      by_cases hcc : c.id ∈ collapsed
      · rw [if_pos hcc]
        rfl
      · rw [if_neg hcc]
        have hws : (optionMapList
            (fun k => calculateSubtreeWidth nodes collapsed nodeSize k.id)
            (getDirectChildren nodes c.id)).isSome = true := by
          apply optionMapList_isSome
          intro k hk
          obtain ⟨hkm, hkp⟩ := mem_getDirectChildren_iff.mp hk
          unfold calculateSubtreeWidth
          exact subtreeWidthF_some_of_chain hnd (nodes.length + 1)
            (show AncestorChain nodes (k :: c :: tail) from ⟨hkm, hkp, hch⟩)
            (by simp only [List.length_cons]; omega)
        obtain ⟨ws, hws2⟩ := Option.isSome_iff_exists.mp hws
        rw [hws2]
        (try dsimp only)
        have hrec : (optionMapList
            (fun pr => positionNode nodes collapsed nodeSize g pr.1.id (depth + 1) pr.2)
            ((getDirectChildren nodes c.id).zip
              (childStartXs sx ((getLayoutMetrics (depth + 1) nodeSize).horizontalGap) ws))).isSome
            = true := by
          apply optionMapList_isSome
          intro pr hpr
          obtain ⟨k, x⟩ := pr
          have hk : k ∈ getDirectChildren nodes c.id := (List.of_mem_zip hpr).1
          obtain ⟨hkm, hkp⟩ := mem_getDirectChildren_iff.mp hk
          exact ih (show AncestorChain nodes (k :: c :: tail) from ⟨hkm, hkp, hch⟩)
            (by simp only [List.length_cons]; omega) (depth + 1) x
        obtain ⟨emits, he⟩ := Option.isSome_iff_exists.mp hrec
        rw [he]
        rfl
    · rfl

theorem positionRoots_some {nodes : List TreeNode} {collapsed : List String}
    {nodeSize : NodeSizeSettings} (hnd : (nodeIds nodes).Nodup) {fuel : Nat}
    (hfuel : nodes.length ≤ fuel) :
    ∀ roots : List TreeNode, (∀ r ∈ roots, r ∈ nodes ∧ r.parentId = none) →
      ∀ x : ℚ, (positionRoots nodes collapsed nodeSize fuel roots x).isSome = true := by
  intro roots
  induction roots with
  | nil =>
    intro _ x
    rw [positionRoots]
    rfl
  | cons r rs ih =>
    intro hall x
    have hr := hall r (by simp)
    have hchain : AncestorChain nodes [r] := ⟨hr.1, hr.2⟩
    rw [positionRoots]
    (try dsimp only)
    obtain ⟨em, hem⟩ := Option.isSome_iff_exists.mp
      (positionNode_some_of_chain hnd fuel hchain (by simpa using hfuel) 0 x)
    rw [hem]
    (try dsimp only)
    have hsw : (calculateSubtreeWidth nodes collapsed nodeSize r.id).isSome = true := by
      unfold calculateSubtreeWidth
      exact subtreeWidthF_some_of_chain hnd (nodes.length + 1) hchain (by simp)
    obtain ⟨w, hw⟩ := Option.isSome_iff_exists.mp hsw
    rw [hw]
    (try dsimp only)
    obtain ⟨rest, hrest⟩ := Option.isSome_iff_exists.mp
      (ih (fun r' hr' => hall r' (List.mem_cons_of_mem r hr'))
        (x + w + (getLayoutMetrics 0 nodeSize).horizontalGap))
    rw [hrest]
    rfl

theorem buildTree_some {nodes : List TreeNode} (hnd : (nodeIds nodes).Nodup)
    {fuel : Nat} (hfuel : nodes.length ≤ fuel) :
    buildTree nodes fuel = some (sortByOrder (buildRoots nodes)) := by
  unfold buildTree
  have hall : (optionMapList (fun r => sortWalk nodes fuel r)
      (sortByOrder (buildRoots nodes))).isSome = true := by
    apply optionMapList_isSome
    intro r hr
    have hr2 := mem_buildRoots hnd (mem_sortByOrder.mp hr)
    exact sortWalk_some_of_chain hnd fuel
      (show AncestorChain nodes [r] from ⟨hr2.1, hr2.2⟩) (by simpa using hfuel)
  obtain ⟨u, hu⟩ := Option.isSome_iff_exists.mp hall
  rw [hu]
  rfl

/-- C7: the claim says `calculateLayout` is total on *every* input node list.
Amended to lists with pairwise-distinct ids (what the store's id generation
guarantees): for those, every fuelled recursion inside `calculateLayout`
returns at the canonical fuel, including on inputs with cyclic parent chains
(such nodes are neither roots nor reachable from one, so no walk enters the
cycle) and on dangling `parentId`s. The counterexample below shows the
unrestricted claim is false: with a duplicated id the `sortChildren`
traversal of `buildTree` re-enters the same object for every amount of fuel,
which in the source is an unbounded recursion. -/
theorem c7_layout_terminates (nodes : List TreeNode) (collapsed : List String)
    (nodeSize : NodeSizeSettings) (hnd : (nodeIds nodes).Nodup) :
    (calculateLayout nodes collapsed nodeSize).isSome = true := by
  unfold calculateLayout calculateLayoutF
  by_cases hnil : nodes = []
  · rw [if_pos hnil]
    rfl
  · rw [if_neg hnil]
    rw [buildTree_some hnd (Nat.le_succ _)]
    (try dsimp only)
    have hw : (optionMapList (fun r => calculateSubtreeWidth nodes collapsed nodeSize r.id)
        (sortByOrder (buildRoots nodes))).isSome = true := by
      apply optionMapList_isSome
      intro r hr
      have hr2 := mem_buildRoots hnd (mem_sortByOrder.mp hr)
      unfold calculateSubtreeWidth
      exact subtreeWidthF_some_of_chain hnd (nodes.length + 1)
        (show AncestorChain nodes [r] from ⟨hr2.1, hr2.2⟩) (by simp)
    obtain ⟨ws, hws⟩ := Option.isSome_iff_exists.mp hw
    rw [hws]
    (try dsimp only)
    obtain ⟨ln, hln⟩ := Option.isSome_iff_exists.mp
      (positionRoots_some hnd (Nat.le_succ _) (sortByOrder (buildRoots nodes))
        (fun r hr => mem_buildRoots hnd (mem_sortByOrder.mp hr)) 0)
    rw [hln]
    rfl

/-- A distinct-id list with a two-cycle (`a` ↔ `b`), a dangling parent
(`c` → `ghost`) and one proper root: the defective inputs the claim names. -/
def cycNodes : List TreeNode :=
  [{ baseNode with id := "a", parentId := some "b" },
   { baseNode with id := "b", parentId := some "a" },
   { baseNode with id := "c", parentId := some "ghost" },
   { baseNode with id := "r", parentId := none }]

theorem c7_layout_terminates_witness :
    (nodeIds cycNodes).Nodup
    ∧ (calculateLayout cycNodes [] defaultNodeSize).isSome = true :=
  ⟨by decide, c7_layout_terminates cycNodes [] defaultNodeSize (by decide)⟩

/-- The model's rendering of "`calculateLayout` terminates on this input":
some amount of recursion fuel makes every fuelled walk inside it return. -/
def layoutTerminates (nodes : List TreeNode) (collapsed : List String)
    (nodeSize : NodeSizeSettings) : Prop :=
  ∃ fuel, (calculateLayoutF fuel nodes collapsed nodeSize).isSome = true

/-- Two records sharing the id "a": the second is its own parent through the
canonical node map. -/
def dupA : TreeNode := { baseNode with id := "a" }

/-- The second record with the duplicated id. -/
def dupB : TreeNode := { baseNode with id := "a", parentId := some "a" }

/-- The duplicate-id input. -/
def dupNodes : List TreeNode := [dupA, dupB]

theorem sortWalk_dup_none : ∀ fuel : Nat, sortWalk dupNodes fuel dupB = none := by
  intro fuel
  induction fuel with
  | zero => rw [sortWalk]
  | succ g ih =>
    rw [sortWalk]
    have hch : sortByOrder (childObjs dupNodes dupB.id) = [dupB] := by decide
    rw [hch, optionMapList]
    (try dsimp only)
    rw [ih]
    rfl

/-- C7 counterexample: on the duplicate-id list, the node map's canonical
object for "a" has itself as parent, so `buildTree`'s `sortChildren`
traversal revisits it forever — no amount of fuel makes `calculateLayout`
return, mirroring the source's unbounded recursion on this input. -/
theorem c7_counterexample : ¬ layoutTerminates dupNodes [] defaultNodeSize := by
  rintro ⟨fuel, h⟩
  unfold calculateLayoutF at h
  rw [if_neg (show ¬ dupNodes = [] by decide)] at h
  have hbt : buildTree dupNodes fuel = none := by
    unfold buildTree
    have hroots : sortByOrder (buildRoots dupNodes) = [dupB] := by decide
    rw [hroots, optionMapList]
    (try dsimp only)
    rw [sortWalk_dup_none fuel]
    rfl
  rw [hbt] at h
  simp at h

end Termination

section Repair

/-- `nodeService.getByProjectId`
(`db.nodes.where('projectId').equals(projectId).toArray()`): the project's
records, in store order. -/
def getByProjectId (db : List TreeNode) (pid : String) : List TreeNode :=
  db.filter (fun n => n.projectId = pid)

/-- The cycle-detection loop of `nodeService.repairProject`
(`src/services/export/jsonExport.ts` lines 386–393): `while
(current?.parentId) { if (visited.has(current.id)) { hasCircle = true;
break } visited.add(current.id); current = nodeMap.get(current.parentId) }`,
with the iteration count made explicit as fuel (`none` = fuel exhausted;
proved below never to happen at the canonical fuel). The map over the stale
snapshot is `mapLookup`. -/
def circleWalk (snapshot : List TreeNode) : Nat → List String → Option TreeNode → Option Bool
  | fuel, visited, cur =>
    match cur with
    | none => some false
    | some c =>
      match c.parentId with
      | none => some false
      | some pid =>
        if c.id ∈ visited then some true
        else
          match fuel with
          | 0 => none
          | fuel' + 1 =>
            circleWalk snapshot fuel' (c.id :: visited) (mapLookup snapshot pid)

/-- `await this.update(node.id, { parentId: null })`, whose return value
`repairProject` discards (an absent id means no write happens). -/
def updateNull (st : List TreeNode) (id : String) (now : Nat) : List TreeNode :=
  (nodeService.update st id { parentId := some none } now).elim st (fun r => r.2)

/-- One iteration of `repairProject`'s `for (const node of nodes)` loop over
the stale snapshot: skip parentless records, walk the stale map from the
record, null its parent on a detected circle, then — re-reading the *stale*
record — null its parent again if the snapshot map does not contain its
`parentId`. -/
def repairStep (snapshot : List TreeNode) (now : Nat)
    (acc : Option (List TreeNode × Nat)) (node : TreeNode) :
    Option (List TreeNode × Nat) :=
  match acc with
  | none => none
  | some (st, fixed) =>
    match node.parentId with
    | none => some (st, fixed)
    | some npid =>
      match circleWalk snapshot (snapshot.length + 1) [] (some node) with
      | none => none
      | some hasCircle =>
        let p1 : List TreeNode × Nat :=
          if hasCircle then (updateNull st node.id now, fixed + 1) else (st, fixed)
        if mapLookup snapshot npid = none then
          some (updateNull p1.1 node.id now, p1.2 + 1)
        else some p1

/-- `nodeService.repairProject` from `src/services/export/jsonExport.ts`
lines 371–409: snapshot the project's records and their id map once, then
walk the stale snapshot, fixing circles and dangling parents by nulling
`parentId` through `nodeService.update`. `removed` is always 0 and is
omitted; the returned `Nat` is the `fixed` counter. -/
def nodeService.repairProject (db : List TreeNode) (pid : String) (now : Nat) :
    Option (List TreeNode × Nat) :=
  (getByProjectId db pid).foldl (repairStep (getByProjectId db pid) now) (some (db, 0))

/-- "Every record with this id has a null parent" — what one nulling update
establishes and every later step preserves. -/
def idParentNone (st : List TreeNode) (i : String) : Prop :=
  ∀ r ∈ st, r.id = i → r.parentId = none

end Repair

/-- The effect of a repair update on one record: id and project are kept and
the parent pointer is either kept or nulled — never re-pointed. -/
def storeRel (o n : TreeNode) : Prop :=
  n.id = o.id ∧ n.projectId = o.projectId ∧ (n.parentId = o.parentId ∨ n.parentId = none)

/-- Positionwise `storeRel` between the store before and after any sequence
of repair updates. -/
def StoreRel (old new : List TreeNode) : Prop := List.Forall₂ storeRel old new

theorem storeRel_refl (l : List TreeNode) : StoreRel l l := by
  induction l with
  | nil => exact List.Forall₂.nil
  | cons x t ih => exact List.Forall₂.cons ⟨rfl, rfl, Or.inl rfl⟩ ih

theorem storeRel_trans : ∀ {l1 l2 l3 : List TreeNode},
    StoreRel l1 l2 → StoreRel l2 l3 → StoreRel l1 l3 := by
  intro l1 l2 l3 h12
  induction h12 generalizing l3 with
  | nil =>
    intro h23
    cases h23
    exact List.Forall₂.nil
  | @cons o n t1 t2 hr ht ih =>
    intro h23
    cases h23 with
    | @cons _ m _ t3 hr2 ht2 =>
      refine List.Forall₂.cons ⟨hr2.1.trans hr.1, hr2.2.1.trans hr.2.1, ?_⟩ (ih ht2)
      rcases hr2.2.2 with h | h
      · rcases hr.2.2 with h' | h'
        · exact Or.inl (h.trans h')
        · exact Or.inr (h.trans h')
      · exact Or.inr h

theorem forall₂_mem_right {α β : Type} {R : α → β → Prop} :
    ∀ {l : List α} {l' : List β}, List.Forall₂ R l l' → ∀ {r : β}, r ∈ l' →
      ∃ o ∈ l, R o r := by
  intro l l' h
  induction h with
  | nil =>
    intro r hr
    simp at hr
  | @cons o n t1 t2 hr ht ih =>
    intro r hrm
    rcases List.mem_cons.mp hrm with h1 | h2
    · exact ⟨o, by simp, h1 ▸ hr⟩
    · obtain ⟨o2, ho2, hRo⟩ := ih h2
      exact ⟨o2, List.mem_cons_of_mem o ho2, hRo⟩

theorem forall₂_nodeIds : ∀ {l l' : List TreeNode},
    StoreRel l l' → nodeIds l' = nodeIds l := by
  intro l l' h
  induction h with
  | nil => rfl
  | @cons o n t1 t2 hr ht ih =>
    simp only [nodeIds, List.map_cons] at ih ⊢
    rw [hr.1, ih]

theorem storeRel_idParentNone {st st2 : List TreeNode} (h : StoreRel st st2) {i : String}
    (hi : idParentNone st i) : idParentNone st2 i := by
  intro r hr hri
  obtain ⟨o, ho, hrel⟩ := forall₂_mem_right h hr
  rcases hrel.2.2 with h1 | h1
  · rw [h1]
    exact hi o ho (by rw [← hrel.1]; exact hri)
  · exact h1

theorem mapLookup_eq_none {st : List TreeNode} {x : String}
    (h : mapLookup st x = none) : ∀ r ∈ st, r.id ≠ x := by
  unfold mapLookup at h
  rw [List.find?_eq_none] at h
  intro r hr
  have := h r (List.mem_reverse.mpr hr)
  simpa using this

theorem forall₂_map_self {α : Type} {R : α → α → Prop} {f : α → α} :
    ∀ {l : List α}, (∀ a ∈ l, R a (f a)) → List.Forall₂ R l (l.map f) := by
  intro l
  induction l with
  | nil =>
    intro _
    exact List.Forall₂.nil
  | cons x t ih =>
    intro h
    exact List.Forall₂.cons (h x (by simp)) (ih (fun a ha => h a (List.mem_cons_of_mem x ha)))

theorem putNode_spec {st : List TreeNode} (hnd : (nodeIds st).Nodup) {u node0 : TreeNode}
    (h0 : node0 ∈ st) (hid : u.id = node0.id) (hproj : u.projectId = node0.projectId)
    (hpar : u.parentId = none) :
    StoreRel st (putNode st u) ∧ idParentNone (putNode st u) u.id := by
  constructor
  · unfold putNode StoreRel
    apply forall₂_map_self
    intro n hn
    by_cases hni : n.id = u.id
    · rw [if_pos hni]
      have hn0 : n = node0 := nodup_id_unique hnd hn h0 (by rw [hni, hid])
      refine ⟨hni.symm, ?_, Or.inr hpar⟩
      rw [hn0]
      exact hproj
    · rw [if_neg hni]
      exact ⟨rfl, rfl, Or.inl rfl⟩
  · intro r hr hri
    unfold putNode at hr
    simp only [List.mem_map] at hr
    obtain ⟨n, hn, hrn⟩ := hr
    by_cases hni : n.id = u.id
    · rw [if_pos hni] at hrn
      rw [← hrn]
      exact hpar
    · rw [if_neg hni] at hrn
      rw [← hrn] at hri
      exact absurd hri hni

theorem updateNull_spec {st : List TreeNode} (hnd : (nodeIds st).Nodup)
    (x : String) (now : Nat) :
    StoreRel st (updateNull st x now) ∧ idParentNone (updateNull st x now) x := by
  unfold updateNull nodeService.update
  rcases hml : mapLookup st x with _ | node0
  · (try dsimp only)
    refine ⟨storeRel_refl st, ?_⟩
    intro r hr hri
    exact absurd hri (mapLookup_eq_none hml r hr)
  · (try dsimp only)
    obtain ⟨h0m, h0id⟩ := mem_of_mapLookup hml
    subst h0id
    exact putNode_spec hnd h0m rfl rfl rfl

theorem circleWalk_isSome {snapshot : List TreeNode} :
    ∀ (fuel : Nat) (visited : List String) (cur : Option TreeNode),
      (∀ c, cur = some c → c ∈ snapshot) →
      ((nodeIds snapshot).dedup.filter (fun i => decide (¬ i ∈ visited))).length ≤ fuel →
      (circleWalk snapshot fuel visited cur).isSome = true := by
  intro fuel
  induction fuel with
  | zero =>
    intro visited cur hcur hle
    rcases cur with _ | c
    · rw [circleWalk]
      rfl
    · rw [circleWalk]
      (try dsimp only)
      rcases hp : c.parentId with _ | pid
      · rfl
      · (try dsimp only)
        have hcv : c.id ∈ visited := by
          by_contra hnv
          have hmem : c.id ∈ (nodeIds snapshot).dedup.filter
              (fun i => decide (¬ i ∈ visited)) :=
            List.mem_filter.mpr
              ⟨List.mem_dedup.mpr (List.mem_map_of_mem _ (hcur c rfl)), by simpa using hnv⟩
          have := List.length_pos_of_mem hmem
          omega
        rw [if_pos hcv]
        rfl
  | succ g ih =>
    intro visited cur hcur hle
    rcases cur with _ | c
    · rw [circleWalk]
      rfl
    · rw [circleWalk]
      (try dsimp only)
      rcases hp : c.parentId with _ | pid
      · rfl
      · (try dsimp only)
        by_cases hcv : c.id ∈ visited
        · rw [if_pos hcv]
          rfl
        · rw [if_neg hcv]
          (try dsimp only)
          apply ih
          · intro y hy
            exact (mem_of_mapLookup hy).1
          · have hcid : c.id ∈ (nodeIds snapshot).dedup :=
              List.mem_dedup.mpr (List.mem_map_of_mem _ (hcur c rfl))
            have hmono : List.Sublist
                ((nodeIds snapshot).dedup.filter (fun i => decide (¬ i ∈ c.id :: visited)))
                ((nodeIds snapshot).dedup.filter (fun i => decide (¬ i ∈ visited))) := by
              apply List.monotone_filter_right
              intro a ha
              simp only [decide_eq_true_eq, List.mem_cons, not_or] at ha ⊢
              exact ha.2
            have hlt : ((nodeIds snapshot).dedup.filter
                  (fun i => decide (¬ i ∈ c.id :: visited))).length
                < ((nodeIds snapshot).dedup.filter
                  (fun i => decide (¬ i ∈ visited))).length := by
              by_contra hge
              simp only [not_lt] at hge
              have heq := hmono.eq_of_length (le_antisymm hmono.length_le hge)
              have h1 : c.id ∈ (nodeIds snapshot).dedup.filter
                  (fun i => decide (¬ i ∈ visited)) :=
                List.mem_filter.mpr ⟨hcid, by simpa using hcv⟩
              rw [← heq] at h1
              have h2 := (List.mem_filter.mp h1).2
              simp at h2
            omega

theorem repairStep_isSome {snapshot : List TreeNode} {now : Nat}
    (st : List TreeNode) (fixed : Nat) {node : TreeNode} (hn : node ∈ snapshot) :
    (repairStep snapshot now (some (st, fixed)) node).isSome = true := by
  rw [repairStep]
  (try dsimp only)
  rcases hp : node.parentId with _ | npid
  · rfl
  · (try dsimp only)
    have hwalk : (circleWalk snapshot (snapshot.length + 1) [] (some node)).isSome = true := by
      apply circleWalk_isSome
      · intro c hc
        injection hc with hc
        rw [← hc]
        exact hn
      · have h1 : ((nodeIds snapshot).dedup.filter
            (fun i => decide (¬ i ∈ ([] : List String)))).length
            ≤ (nodeIds snapshot).dedup.length := (List.filter_sublist _).length_le
        have h2 := (nodeIds snapshot).dedup_sublist.length_le
        have h3 : (nodeIds snapshot).length = snapshot.length := by simp [nodeIds]
        omega
    obtain ⟨w, hw⟩ := Option.isSome_iff_exists.mp hwalk
    rw [hw]
    (try dsimp only)
    by_cases hd : mapLookup snapshot npid = none
    · rw [if_pos hd]
      rfl
    · rw [if_neg hd]
      rfl

theorem foldl_repairStep_none {snapshot : List TreeNode} {now : Nat} :
    ∀ l : List TreeNode, l.foldl (repairStep snapshot now) none = none := by
  intro l
  induction l with
  | nil => rfl
  | cons x t ih =>
    rw [List.foldl_cons, show repairStep snapshot now none x = none from rfl]
    exact ih

theorem foldl_repairStep_isSome {snapshot : List TreeNode} {now : Nat} :
    ∀ l : List TreeNode, (∀ x ∈ l, x ∈ snapshot) →
      ∀ (st : List TreeNode) (fixed : Nat),
      (l.foldl (repairStep snapshot now) (some (st, fixed))).isSome = true := by
  intro l
  induction l with
  | nil =>
    intro _ st fixed
    rfl
  | cons x t ih =>
    intro hall st fixed
    rw [List.foldl_cons]
    obtain ⟨⟨st1, f1⟩, h1⟩ := Option.isSome_iff_exists.mp
      (repairStep_isSome st fixed (hall x (by simp)))
    rw [h1]
    exact ih (fun y hy => hall y (List.mem_cons_of_mem x hy)) st1 f1

theorem repairProject_isSome (db : List TreeNode) (pid : String) (now : Nat) :
    (nodeService.repairProject db pid now).isSome = true := by
  unfold nodeService.repairProject
  exact foldl_repairStep_isSome (getByProjectId db pid) (fun x hx => hx) db 0

theorem repairStep_spec {snapshot : List TreeNode} {now : Nat}
    {st st2 : List TreeNode} {f f2 : Nat} {node : TreeNode}
    (hnd : (nodeIds st).Nodup)
    (h : repairStep snapshot now (some (st, f)) node = some (st2, f2)) :
    StoreRel st st2 := by
  rw [repairStep] at h
  (try dsimp only at h)
  rcases hp : node.parentId with _ | npid
  all_goals rw [hp] at h
  · (try dsimp only at h)
    injection h with h
    rw [Prod.mk.injEq] at h
    rw [← h.1]
    exact storeRel_refl st
  · (try dsimp only at h)
    rcases hwk : circleWalk snapshot (snapshot.length + 1) [] (some node) with _ | wb
    · rw [hwk] at h
      exact absurd h (by simp)
    · rw [hwk] at h
      (try dsimp only at h)
      have hnd1 : (nodeIds (updateNull st node.id now)).Nodup := by
        rw [forall₂_nodeIds (updateNull_spec hnd node.id now).1]
        exact hnd
      rcases wb with _ | _
      · by_cases hd : mapLookup snapshot npid = none
        · rw [if_pos hd] at h
          injection h with h
          rw [Prod.mk.injEq] at h
          rw [← h.1]
          exact (updateNull_spec hnd node.id now).1
        · rw [if_neg hd] at h
          injection h with h
          rw [Prod.mk.injEq] at h
          rw [← h.1]
          exact storeRel_refl st
      · by_cases hd : mapLookup snapshot npid = none
        · rw [if_pos hd] at h
          injection h with h
          rw [Prod.mk.injEq] at h
          rw [← h.1]
          exact storeRel_trans (updateNull_spec hnd node.id now).1
            (updateNull_spec hnd1 node.id now).1
        · rw [if_neg hd] at h
          injection h with h
          rw [Prod.mk.injEq] at h
          rw [← h.1]
          exact (updateNull_spec hnd node.id now).1

theorem repairStep_fires {snapshot : List TreeNode} {now : Nat}
    {st st2 : List TreeNode} {f f2 : Nat} {node : TreeNode} {npid : String}
    (hnd : (nodeIds st).Nodup) (hp : node.parentId = some npid)
    (hw : circleWalk snapshot (snapshot.length + 1) [] (some node) = some true)
    (h : repairStep snapshot now (some (st, f)) node = some (st2, f2)) :
    idParentNone st2 node.id := by
  rw [repairStep] at h
  (try dsimp only at h)
  rw [hp] at h
  (try dsimp only at h)
  rw [hw] at h
  (try dsimp only at h)
  have hnd1 : (nodeIds (updateNull st node.id now)).Nodup := by
    rw [forall₂_nodeIds (updateNull_spec hnd node.id now).1]
    exact hnd
  by_cases hd : mapLookup snapshot npid = none
  · rw [if_pos hd] at h
    injection h with h
    rw [Prod.mk.injEq] at h
    rw [← h.1]
    exact (updateNull_spec hnd1 node.id now).2
  · rw [if_neg hd] at h
    injection h with h
    rw [Prod.mk.injEq] at h
    rw [← h.1]
    exact (updateNull_spec hnd node.id now).2

theorem fold_pres {snapshot : List TreeNode} {now : Nat} {db : List TreeNode}
    (hnd : (nodeIds db).Nodup) :
    ∀ l : List TreeNode, ∀ {st : List TreeNode} {f : Nat} {st' : List TreeNode} {f' : Nat},
      StoreRel db st →
      List.foldl (repairStep snapshot now) (some (st, f)) l = some (st', f') →
      StoreRel db st' ∧ ∀ i, idParentNone st i → idParentNone st' i := by
  intro l
  induction l with
  | nil =>
    intro st f st' f' hrel hfold
    rw [List.foldl_nil] at hfold
    injection hfold with hfold
    rw [Prod.mk.injEq] at hfold
    rw [← hfold.1]
    exact ⟨hrel, fun i h => h⟩
  | cons x t ih =>
    intro st f st' f' hrel hfold
    rw [List.foldl_cons] at hfold
    rcases hstep : repairStep snapshot now (some (st, f)) x with _ | ⟨st1, f1⟩
    · rw [hstep, foldl_repairStep_none] at hfold
      exact absurd hfold (by simp)
    · rw [hstep] at hfold
      have hnds : (nodeIds st).Nodup := by
        rw [forall₂_nodeIds hrel]
        exact hnd
      have hrel1 := repairStep_spec hnds hstep
      obtain ⟨hrel2, hpres⟩ := ih (storeRel_trans hrel hrel1) hfold
      exact ⟨hrel2, fun i h => hpres i (storeRel_idParentNone hrel1 h)⟩

theorem fold_null {snapshot : List TreeNode} {now : Nat} {db : List TreeNode}
    (hnd : (nodeIds db).Nodup) :
    ∀ l : List TreeNode,
      ∀ {st : List TreeNode} {f : Nat} {st' : List TreeNode} {f' : Nat}
        {node : TreeNode} {npid : String},
      StoreRel db st → node ∈ l → node.parentId = some npid →
      circleWalk snapshot (snapshot.length + 1) [] (some node) = some true →
      List.foldl (repairStep snapshot now) (some (st, f)) l = some (st', f') →
      idParentNone st' node.id := by
  intro l
  induction l with
  | nil =>
    intro st f st' f' node npid _ hmem
    simp at hmem
  | cons x t ih =>
    intro st f st' f' node npid hrel hmem hp hw hfold
    rw [List.foldl_cons] at hfold
    rcases hstep : repairStep snapshot now (some (st, f)) x with _ | ⟨st1, f1⟩
    · rw [hstep, foldl_repairStep_none] at hfold
      exact absurd hfold (by simp)
    · rw [hstep] at hfold
      have hnds : (nodeIds st).Nodup := by
        rw [forall₂_nodeIds hrel]
        exact hnd
      have hrel1 := repairStep_spec hnds hstep
      have hdb1 : StoreRel db st1 := storeRel_trans hrel hrel1
      rcases List.mem_cons.mp hmem with heq | hmem2
      · subst heq
        have hN : idParentNone st1 node.id := repairStep_fires hnds hp hw hstep
        exact (fold_pres hnd t hdb1 hfold).2 node.id hN
      · exact ih hdb1 hmem2 hp hw hfold

theorem twoCycle_walk {snapshot : List TreeNode} (hnds : (nodeIds snapshot).Nodup)
    {a b : TreeNode} (ha : a ∈ snapshot) (hb : b ∈ snapshot)
    (hab : a.parentId = some b.id) (hba : b.parentId = some a.id)
    (hne : a.id ≠ b.id) :
    circleWalk snapshot (snapshot.length + 1) [] (some a) = some true := by
  obtain ⟨g, hg⟩ : ∃ g, snapshot.length + 1 = g + 2 :=
    ⟨snapshot.length - 1, by have := List.length_pos_of_mem ha; omega⟩
  rw [hg]
  rw [circleWalk]
  (try dsimp only)
  rw [hab]
  (try dsimp only)
  rw [if_neg (by simp)]
  (try dsimp only)
  rw [mapLookup_self hnds hb]
  rw [circleWalk]
  (try dsimp only)
  rw [hba]
  (try dsimp only)
  rw [if_neg (by simp [Ne.symm hne])]
  (try dsimp only)
  rw [mapLookup_self hnds ha]
  rw [circleWalk]
  (try dsimp only)
  rw [hab]
  (try dsimp only)
  rw [if_pos (by simp)]

theorem survived_quiet {snapshot : List TreeNode} {now : Nat} {db : List TreeNode}
    (hnd : (nodeIds db).Nodup) :
    ∀ l : List TreeNode,
      ∀ {st : List TreeNode} {f : Nat} {st' : List TreeNode} {f' : Nat}
        {node : TreeNode} {npid : String},
      StoreRel db st → node ∈ l → node.parentId = some npid →
      List.foldl (repairStep snapshot now) (some (st, f)) l = some (st', f') →
      ¬ idParentNone st' node.id →
      circleWalk snapshot (snapshot.length + 1) [] (some node) = some false
        ∧ mapLookup snapshot npid ≠ none := by
  intro l
  induction l with
  | nil =>
    intro st f st' f' node npid _ hmem
    simp at hmem
  | cons x t ih =>
    intro st f st' f' node npid hrel hmem hp hfold hsurv
    rw [List.foldl_cons] at hfold
    rcases hstep : repairStep snapshot now (some (st, f)) x with _ | ⟨st1, f1⟩
    · rw [hstep, foldl_repairStep_none] at hfold
      exact absurd hfold (by simp)
    · rw [hstep] at hfold
      have hnds : (nodeIds st).Nodup := by
        rw [forall₂_nodeIds hrel]
        exact hnd
      have hrel1 := repairStep_spec hnds hstep
      have hdb1 : StoreRel db st1 := storeRel_trans hrel hrel1
      have hpres := (fold_pres hnd t hdb1 hfold).2 node.id
      rcases List.mem_cons.mp hmem with heq | hmem2
      · subst heq
        rcases hwk : circleWalk snapshot (snapshot.length + 1) [] (some node) with _ | wb
        · have hno : repairStep snapshot now (some (st, f)) node = none := by
            rw [repairStep]
            (try dsimp only)
            rw [hp]
            (try dsimp only)
            rw [hwk]
          rw [hstep] at hno
          exact absurd hno (by simp)
        · rcases wb with _ | _
          · by_cases hd : mapLookup snapshot npid = none
            · have hst1 : st1 = updateNull st node.id now := by
                have h2 := hstep
                rw [repairStep] at h2
                (try dsimp only at h2)
                rw [hp] at h2
                (try dsimp only at h2)
                rw [hwk] at h2
                (try dsimp only at h2)
                rw [if_pos hd] at h2
                injection h2 with h2
                rw [Prod.mk.injEq] at h2
                exact h2.1.symm
              have hN : idParentNone st1 node.id := by
                rw [hst1]
                exact (updateNull_spec hnds node.id now).2
              exact absurd (hpres hN) hsurv
            · exact ⟨rfl, hd⟩
          · have hN := repairStep_fires hnds hp hwk hstep
            exact absurd (hpres hN) hsurv
      · exact ih hdb1 hmem2 hp hfold hsurv

theorem find?_rel {R : TreeNode → TreeNode → Prop}
    (hid : ∀ o n, R o n → n.id = o.id) :
    ∀ {l l' : List TreeNode}, List.Forall₂ R l l' → ∀ p : String,
      (l.find? (fun n => n.id = p) = none ∧ l'.find? (fun n => n.id = p) = none)
      ∨ ∃ y y', l.find? (fun n => n.id = p) = some y
          ∧ l'.find? (fun n => n.id = p) = some y' ∧ R y y' := by
  intro l l' h
  induction h with
  | nil =>
    intro p
    left
    exact ⟨rfl, rfl⟩
  | @cons o n t1 t2 hr ht ih =>
    intro p
    by_cases hop : o.id = p
    · right
      refine ⟨o, n, List.find?_cons_of_pos _ (by simpa using hop),
        List.find?_cons_of_pos _ (by simp [hid o n hr, hop]), hr⟩
    · have hnp : ¬ n.id = p := by
        rw [hid o n hr]
        exact hop
      rw [List.find?_cons_of_neg _ (by simpa using hop),
        List.find?_cons_of_neg _ (by simpa using hnp)]
      exact ih p

theorem mapLookup_rel {R : TreeNode → TreeNode → Prop}
    (hid : ∀ o n, R o n → n.id = o.id) {l l' : List TreeNode}
    (h : List.Forall₂ R l l') (p : String) :
    (mapLookup l p = none ∧ mapLookup l' p = none)
    ∨ ∃ y y', mapLookup l p = some y ∧ mapLookup l' p = some y' ∧ R y y' := by
  unfold mapLookup
  exact find?_rel hid (List.forall₂_reverse_iff.mpr h) p

theorem circleWalk_weaken {snapshot snapshot2 : List TreeNode}
    (hrel : StoreRel snapshot snapshot2) :
    ∀ (fuel : Nat) (visited : List String) (cur cur2 : Option TreeNode),
      (cur = none ∧ cur2 = none ∨ ∃ x x2, cur = some x ∧ cur2 = some x2 ∧ storeRel x x2) →
      circleWalk snapshot fuel visited cur = some false →
      circleWalk snapshot2 fuel visited cur2 = some false := by
  intro fuel
  induction fuel with
  | zero =>
    intro visited cur cur2 hcc horig
    rcases hcc with ⟨h1, h2⟩ | ⟨x, x2, h1, h2, hrx⟩
    · subst h2
      rw [circleWalk]
    · subst h1
      subst h2
      rw [circleWalk] at horig
      (try dsimp only at horig)
      rw [circleWalk]
      (try dsimp only)
      rcases hp2 : x2.parentId with _ | p2
      · rfl
      · have hp1 : x.parentId = some p2 := by
          rcases hrx.2.2 with h | h
          · rw [← h]
            exact hp2
          · rw [hp2] at h
            exact absurd h (by simp)
        rw [hp1] at horig
        (try dsimp only at horig)
        by_cases hv : x.id ∈ visited
        · rw [if_pos hv] at horig
          exact absurd horig (by simp)
        · rw [if_neg hv] at horig
          exact absurd horig (by simp)
  | succ g ih =>
    intro visited cur cur2 hcc horig
    rcases hcc with ⟨h1, h2⟩ | ⟨x, x2, h1, h2, hrx⟩
    · subst h2
      rw [circleWalk]
    · subst h1
      subst h2
      rw [circleWalk] at horig
      (try dsimp only at horig)
      rw [circleWalk]
      (try dsimp only)
      rcases hp2 : x2.parentId with _ | p2
      · rfl
      · have hp1 : x.parentId = some p2 := by
          rcases hrx.2.2 with h | h
          · rw [← h]
            exact hp2
          · rw [hp2] at h
            exact absurd h (by simp)
        rw [hp1] at horig
        (try dsimp only at horig)
        by_cases hv : x.id ∈ visited
        · rw [if_pos hv] at horig
          exact absurd horig (by simp)
        · have hv2 : ¬ x2.id ∈ visited := by
            rw [hrx.1]
            exact hv
          rw [if_neg hv] at horig
          (try dsimp only)
          rw [if_neg hv2]
          (try dsimp only at horig)
          rw [hrx.1]
          rcases mapLookup_rel (fun o n h => h.1) hrel p2 with ⟨hn1, hn2⟩ |
            ⟨y, y2, hy1, hy2, hry⟩
          · rw [hn1] at horig
            rw [hn2]
            exact ih (x.id :: visited) none none (Or.inl ⟨rfl, rfl⟩) horig
          · rw [hy1] at horig
            rw [hy2]
            exact ih (x.id :: visited) (some y) (some y2)
              (Or.inr ⟨y, y2, rfl, rfl, hry⟩) horig

theorem storeRel_filter {db st : List TreeNode} (h : StoreRel db st) (pid : String) :
    StoreRel (getByProjectId db pid) (getByProjectId st pid) := by
  unfold getByProjectId
  induction h with
  | nil => exact List.Forall₂.nil
  | @cons o n t1 t2 hr ht ih =>
    by_cases hop : o.projectId = pid
    · have hnp : n.projectId = pid := by
        rw [hr.2.1]
        exact hop
      rw [List.filter_cons_of_pos (by simpa using hop),
        List.filter_cons_of_pos (by simpa using hnp)]
      exact List.Forall₂.cons hr ih
    · have hnp : ¬ n.projectId = pid := by
        rw [hr.2.1]
        exact hop
      rw [List.filter_cons_of_neg (by simpa using hop),
        List.filter_cons_of_neg (by simpa using hnp)]
      exact ih

theorem fold_quiet {snapshot2 : List TreeNode} {now2 : Nat} :
    ∀ l : List TreeNode, ∀ (st : List TreeNode) (f : Nat),
      (∀ x ∈ l, x.parentId = none
        ∨ ∃ p, x.parentId = some p
            ∧ circleWalk snapshot2 (snapshot2.length + 1) [] (some x) = some false
            ∧ ¬ mapLookup snapshot2 p = none) →
      List.foldl (repairStep snapshot2 now2) (some (st, f)) l = some (st, f) := by
  intro l
  induction l with
  | nil =>
    intro st f _
    rfl
  | cons x t ih =>
    intro st f hall
    rw [List.foldl_cons]
    have hx : repairStep snapshot2 now2 (some (st, f)) x = some (st, f) := by
      rcases hall x (by simp) with hn | ⟨p, hp, hw, hd⟩
      · rw [repairStep]
        (try dsimp only)
        rw [hn]
      · rw [repairStep]
        (try dsimp only)
        rw [hp]
        (try dsimp only)
        rw [hw]
        (try dsimp only)
        rw [if_neg hd]
        rfl
    rw [hx]
    exact ih st f (fun y hy => hall y (List.mem_cons_of_mem x hy))

/-- C8: for every store with pairwise-distinct ids (the table's primary-key
invariant) containing a two-cycle `a` → `b` → `a` inside the project,
`repairProject` terminates — every per-node circle walk returns within
`snapshot.length + 1` iterations because the visited set grows by a fresh
snapshot id each round — and afterwards every record with `a`'s id and every
record with `b`'s id has a null parent (both directions of the cycle are
detected on the stale snapshot, which is stronger than the claim's "at least
one"). Running `repairProject` again on the repaired store performs no parent
reassignment at all: it returns the same store with `fixed = 0`, because a
surviving parent pointer means the first run's walk from that record found no
circle and no dangling parent, and the second run's walks — over a store
whose records only differ by nulled parents — can only stop earlier. -/
theorem c8_repair_two_cycle (db : List TreeNode) (pid : String)
    (a b : TreeNode) (now now2 : Nat)
    (hnd : (nodeIds db).Nodup) (ha : a ∈ db) (hb : b ∈ db)
    (hpa : a.projectId = pid) (hpb : b.projectId = pid)
    (hab : a.parentId = some b.id) (hba : b.parentId = some a.id)
    (hne : a.id ≠ b.id) :
    ∃ st fixed, nodeService.repairProject db pid now = some (st, fixed)
      ∧ idParentNone st a.id ∧ idParentNone st b.id
      ∧ nodeService.repairProject st pid now2 = some (st, 0) := by
  obtain ⟨⟨st, fixed⟩, hrun⟩ := Option.isSome_iff_exists.mp (repairProject_isSome db pid now)
  have hrun' : List.foldl (repairStep (getByProjectId db pid) now) (some (db, 0))
      (getByProjectId db pid) = some (st, fixed) := hrun
  have hnds : (nodeIds (getByProjectId db pid)).Nodup := by
    have hsub : List.Sublist (nodeIds (getByProjectId db pid)) (nodeIds db) := by
      unfold nodeIds getByProjectId
      exact (List.filter_sublist db).map _
    exact hsub.nodup hnd
  have ha' : a ∈ getByProjectId db pid := List.mem_filter.mpr ⟨ha, by simp [hpa]⟩
  have hb' : b ∈ getByProjectId db pid := List.mem_filter.mpr ⟨hb, by simp [hpb]⟩
  have hwa : circleWalk (getByProjectId db pid) ((getByProjectId db pid).length + 1) []
      (some a) = some true := twoCycle_walk hnds ha' hb' hab hba hne
  have hwb : circleWalk (getByProjectId db pid) ((getByProjectId db pid).length + 1) []
      (some b) = some true := twoCycle_walk hnds hb' ha' hba hab (Ne.symm hne)
  have hNa : idParentNone st a.id :=
    fold_null hnd (getByProjectId db pid) (storeRel_refl db) ha' hab hwa hrun'
  have hNb : idParentNone st b.id :=
    fold_null hnd (getByProjectId db pid) (storeRel_refl db) hb' hba hwb hrun'
  have hrel : StoreRel db st := (fold_pres hnd (getByProjectId db pid)
    (storeRel_refl db) hrun').1
  have hrels : StoreRel (getByProjectId db pid) (getByProjectId st pid) :=
    storeRel_filter hrel pid
  have hlen2 : (getByProjectId st pid).length = (getByProjectId db pid).length :=
    hrels.length_eq.symm
  refine ⟨st, fixed, hrun, hNa, hNb, ?_⟩
  unfold nodeService.repairProject
  apply fold_quiet
  intro x2 hx2
  rcases hx2p : x2.parentId with _ | p
  · exact Or.inl rfl
  · right
    obtain ⟨x, hx, hrx⟩ := forall₂_mem_right hrels hx2
    have hxp : x.parentId = some p := by
      rcases hrx.2.2 with h | h
      · rw [← h]
        exact hx2p
      · rw [hx2p] at h
        exact absurd h (by simp)
    have hx2st : x2 ∈ st := List.mem_of_mem_filter hx2
    have hnotnull : ¬ idParentNone st x.id := by
      intro hI
      have := hI x2 hx2st (by rw [hrx.1])
      rw [hx2p] at this
      exact absurd this (by simp)
    have hquiet := survived_quiet hnd (getByProjectId db pid) (storeRel_refl db)
      hx hxp hrun' hnotnull
    refine ⟨p, rfl, ?_, ?_⟩
    · rw [hlen2]
      exact circleWalk_weaken hrels ((getByProjectId db pid).length + 1) []
        (some x) (some x2) (Or.inr ⟨x, x2, rfl, rfl, hrx⟩) hquiet.1
    · rcases mapLookup_rel (fun o n h => h.1) hrels p with ⟨h1, h2⟩ |
        ⟨y, y2, hy1, hy2, hry⟩
      · exact absurd h1 hquiet.2
      · intro hcon
        rw [hy2] at hcon
        exact absurd hcon (by simp)

/-- The project record `a` of the two-cycle witness. -/
def cyA : TreeNode := { baseNode with id := "a", parentId := some "b" }

/-- The project record `b` of the two-cycle witness. -/
def cyB : TreeNode := { baseNode with id := "b", parentId := some "a" }

/-- A store holding exactly the introduced two-cycle. -/
def c8Db : List TreeNode := [cyA, cyB]

theorem c8_repair_two_cycle_witness :
    (nodeIds c8Db).Nodup
    ∧ ∃ st fixed, nodeService.repairProject c8Db "P" 1 = some (st, fixed)
        ∧ idParentNone st cyA.id ∧ idParentNone st cyB.id
        ∧ nodeService.repairProject st "P" 2 = some (st, 0) :=
  ⟨by decide,
    c8_repair_two_cycle c8Db "P" cyA cyB 1 2 (by decide) (by decide) (by decide)
      (by decide) (by decide) (by decide) (by decide) (by decide)⟩
